import Mathlib

/-! golang-labs: a verification development.

Shallow embedding of the laboratory programs of the repository (the order
pipeline of `lab4/zad4.go`, the PESEL generator of `lab1/zad1.go`, the sort of
`lab2/zad2.go`, the file system of `lab3/zad3.go`) and proofs about them.

Conventions of the embedding.

* Go `int` values that stay far away from the 64-bit range (loop counters,
  identifiers, digits) are `Int`/`Nat`.
* Calls into the environment (`rand.Intn`, `rand.Float64`, `time.Since`) are
  explicit arguments: every call consumes one value of a *draw*.  `rand.Intn n`
  returns a value of `Fin n`, which is the contract of that function.
* Output on standard output and channel operations are recorded as events of
  a trace, in program order.
-/

namespace Lab4

/-! ## Data model (`lab4/zad4.go`, lines 10-34) -/

/-- The struct `Order`.  `TotalAmount` is a `float64` in the source; no
operation of the pipeline computes with it, it is carried as a rational. -/
structure Order where
  ID : Int
  CustomerName : String
  Items : List String
  TotalAmount : ℚ
deriving DecidableEq

/-- The struct `ProcessResult`.  `ProcessTime` is a `time.Duration`
(nanoseconds); `Error` is the `error` interface value, `none` for `nil` and
`some msg` for the error built by `fmt.Errorf` with message `msg`. -/
structure ProcessResult where
  OrderID : Int
  CustomerName : String
  Success : Bool
  ProcessTime : Int
  Error : Option String
deriving DecidableEq

def numOrders : Nat := 20
def numWorkers : Nat := 5
def maxRetries : Nat := 3
def orderIntervalMs : Nat := 300

def customerNames : List String := ["Anna", "Bartek", "Celina", "Damian", "Emilia"]
def itemList : List String := ["Laptop", "Myszka", "Monitor", "Klawiatura", "Słuchawki"]

/-- The zero value of `ProcessResult`, the initial value of
`var result ProcessResult`. -/
def ProcessResult.zero : ProcessResult :=
  { OrderID := 0, CustomerName := "", Success := false, ProcessTime := 0, Error := none }

/-! ## `processOrder` (lines 52-69) -/

/-- What the environment returns during one call of `processOrder`:
`rand.Intn(1000)`, `rand.Float64()` and `time.Since(start)`. -/
structure ProcDraw where
  sleep : Fin 1000
  u : ℚ
  elapsed : Int

/-- The `float64` constant `0.2`, exactly: `0x3FC999999999999A`. -/
def successThreshold : ℚ := 3602879701896397 / 18014398509481984

/-- The duration slept by `processOrder`, in milliseconds; sleeping has no
effect on the result returned. -/
def sleepDuration (d : ProcDraw) : Nat := d.sleep.val + 500

def processOrder (order : Order) (d : ProcDraw) : ProcessResult :=
  let success : Bool := decide (d.u > successThreshold)
  let err : Option String :=
    if !success then some ("błąd przetwarzania zamówienia " ++ toString order.ID) else none
  { OrderID := order.ID
    CustomerName := order.CustomerName
    Success := success
    ProcessTime := d.elapsed
    Error := err }

/-! ## `worker` (lines 71-84) -/

/-- Observable actions of a worker, in program order. -/
inductive WEvent where
  | invoke (order : Order) (r : ProcessResult)
  | print (line : String)
  | send (r : ProcessResult)
  | done
deriving DecidableEq

/-- The line printed after a failed attempt. -/
def retryLine (attempt : Nat) (id : Int) : String :=
  "Ponowna próba [" ++ toString attempt ++ "] dla zamówienia " ++ toString id ++ "\n"

/-- Local state of a worker while it handles one order: the variable
`result`, the number of draws consumed so far and the events emitted. -/
structure WState where
  result : ProcessResult
  pos : Nat
  trace : List WEvent

/-- The loop `for attempt := 1; attempt <= maxRetries; attempt++`, entered
with the loop variable equal to `attempt`. -/
def retryLoop (rnd : Nat → ProcDraw) (order : Order) (attempt : Nat) (s : WState) : WState :=
  if attempt ≤ maxRetries then
    let result := processOrder order (rnd s.pos)
    let s1 : WState :=
      { result := result, pos := s.pos + 1, trace := s.trace ++ [WEvent.invoke order result] }
    if result.Success then s1
    else
      retryLoop rnd order (attempt + 1)
        { s1 with trace := s1.trace ++ [WEvent.print (retryLine attempt order.ID)] }
  else s
termination_by maxRetries + 1 - attempt

/-- The body of `for order := range orderCh`: the retry loop followed by
`resultCh <- result`. -/
def workerBody (rnd : Nat → ProcDraw) (pos : Nat) (order : Order) : WState :=
  let s := retryLoop rnd order 1 { result := ProcessResult.zero, pos := pos, trace := [] }
  { s with trace := s.trace ++ [WEvent.send s.result] }

/-- One worker that receives the orders `orders` from the intake, in this
order, and then finds the intake closed (`wg.Done()` runs last). -/
def worker (rnd : Nat → ProcDraw) : List Order → Nat → List WEvent
  | [], _ => [WEvent.done]
  | order :: rest, pos =>
    (workerBody rnd pos order).trace ++ worker rnd rest (workerBody rnd pos order).pos

/-- The results of the `processOrder` calls recorded in a trace. -/
def invocations : List WEvent → List ProcessResult
  | [] => []
  | WEvent.invoke _ r :: t => r :: invocations t
  | _ :: t => invocations t

/-- The results sent on `resultCh` recorded in a trace. -/
def sent : List WEvent → List ProcessResult
  | [] => []
  | WEvent.send r :: t => r :: sent t
  | _ :: t => sent t

/-- The lines printed recorded in a trace. -/
def printed : List WEvent → List String
  | [] => []
  | WEvent.print l :: t => l :: printed t
  | _ :: t => printed t

/-- Number of `processOrder` calls the worker makes for one order. -/
def invocationCount (rnd : Nat → ProcDraw) (pos : Nat) (order : Order) : Nat :=
  (invocations (workerBody rnd pos order).trace).length

/-! ## `generateOrders` (lines 37-50) -/

/-- What the environment returns during one iteration of the loop of
`generateOrders`: `rand.Intn(orderIntervalMs)`,
`rand.Intn(len(customerNames))`, `rand.Intn(len(itemList))`, `rand.Intn(900)`
and `rand.Float64()`. -/
structure GenDraw where
  delay : Fin orderIntervalMs
  customer : Fin customerNames.length
  item : Fin itemList.length
  amount : Fin 900
  frac : ℚ

/-- Observable actions of the generator, in program order. -/
inductive GEvent where
  | sleep (ms : Nat)
  | print (order : Order)
  | send (order : Order)
  | close
deriving DecidableEq

/-- The composite literal `Order{...}` built in iteration `i`. -/
def mkOrder (i : Nat) (d : GenDraw) : Order :=
  { ID := (i : Int)
    CustomerName := customerNames.get d.customer
    Items := [itemList.get d.item]
    TotalAmount := ((d.amount.val + 100 : Nat) : ℚ) + d.frac }

/-- The loop `for i := 1; i <= numOrders; i++`, entered with the loop variable
equal to `i`; `rnd i` is what the environment returns in iteration `i`. -/
def generateLoop (rnd : Nat → GenDraw) (i : Nat) (trace : List GEvent) : List GEvent :=
  if i ≤ numOrders then
    generateLoop rnd (i + 1)
      (trace ++ [GEvent.sleep (rnd i).delay.val, GEvent.print (mkOrder i (rnd i)),
                 GEvent.send (mkOrder i (rnd i))])
  else trace
termination_by numOrders + 1 - i

def generateOrders (rnd : Nat → GenDraw) : List GEvent :=
  generateLoop rnd 1 [] ++ [GEvent.close]

/-- The orders sent on `orderCh` recorded in a trace. -/
def sentOrders : List GEvent → List Order
  | [] => []
  | GEvent.send o :: t => o :: sentOrders t
  | _ :: t => sentOrders t

/-! ## The aggregator (`main`, lines 107-122) -/

/-- The lines printed by the loop over `resultCh`: `Sukces [id] name (time)`
and `Niepowodzenie [id] name: err`, kept as their arguments. -/
inductive AggLine where
  | sukces (id : Int) (name : String) (time : Int)
  | niepowodzenie (id : Int) (name : String) (err : Option String)
deriving DecidableEq

/-- The variables `total, success, failure` and the lines printed so far.
The counters are Go `int`s; they count received results, so they stay below
`2 ^ 63` in every execution and are natural numbers here. -/
structure AggState where
  total : Nat
  success : Nat
  failure : Nat
  out : List AggLine
deriving DecidableEq

def aggInit : AggState := { total := 0, success := 0, failure := 0, out := [] }

/-- The body of `for result := range resultCh`. -/
def aggStep (s : AggState) (result : ProcessResult) : AggState :=
  if result.Success then
    { total := s.total + 1, success := s.success + 1, failure := s.failure,
      out := s.out ++ [AggLine.sukces result.OrderID result.CustomerName result.ProcessTime] }
  else
    { total := s.total + 1, success := s.success, failure := s.failure + 1,
      out := s.out ++ [AggLine.niepowodzenie result.OrderID result.CustomerName result.Error] }

/-- The loop over `resultCh` when the results received before the channel
is closed are `results`, in this order. -/
def aggregate (results : List ProcessResult) : AggState :=
  results.foldl aggStep aggInit

/-- The values of `float64` the summary can produce: a finite value, an
infinity, or NaN.  A finite value is the rational number it stands for; the
operations below round their exact result to the nearest `float64`.  Every
zero that occurs is the conversion of the integer `0` or the quotient of it,
so the sign of zero is not modelled. -/
inductive F64 where
  | fin (q : ℚ)
  | inf (negative : Bool)
  | nan
deriving DecidableEq

/-- The integer nearest to `q`, the even one of the two when `q` is half-way
between two integers. -/
def roundHalfEven (q : ℚ) : ℤ :=
  if q - ⌊q⌋ < 1 / 2 then ⌊q⌋
  else if 1 / 2 < q - ⌊q⌋ then ⌊q⌋ + 1
  else if ⌊q⌋ % 2 = 0 then ⌊q⌋
  else ⌊q⌋ + 1

/-- The distance between neighbouring `float64` values at the magnitude
`a > 0`: `2 ^ (e - 52)` for `2 ^ e ≤ a < 2 ^ (e + 1)` (53 significant bits),
with `e` no lower than `-1022` (subnormal values). -/
def F64.quantum (a : ℚ) : ℚ := 2 ^ (max (Int.log 2 a) (-1022) - 52)

/-- The magnitude `a > 0` rounded to the nearest multiple of its quantum,
ties to the even multiple. -/
def F64.roundMagnitude (a : ℚ) : ℚ :=
  (roundHalfEven (a / F64.quantum a) : ℚ) * F64.quantum a

/-- The `float64` nearest to the real number `x` (IEEE 754 binary64, round to
nearest, ties to even): a result of magnitude `2 ^ 1024` or more is an
infinity. -/
def F64.round (x : ℚ) : F64 :=
  if x = 0 then F64.fin 0
  else if 2 ^ 1024 ≤ F64.roundMagnitude |x| then F64.inf (decide (x < 0))
  else F64.fin (if x < 0 then -F64.roundMagnitude |x| else F64.roundMagnitude |x|)

/-- The conversion `float64(n)` of an `int`. -/
def F64.ofInt (n : Int) : F64 := F64.round (n : ℚ)

/-- IEEE 754 division, as Go performs it on `float64` operands at run time:
no panic, `0/0` and `inf/inf` are NaN, a non-zero finite value divided by
zero is an infinity, and a finite quotient is rounded. -/
def F64.div : F64 → F64 → F64
  | F64.nan, _ => F64.nan
  | _, F64.nan => F64.nan
  | F64.inf _, F64.inf _ => F64.nan
  | F64.inf s, F64.fin b => F64.inf (s != decide (b < 0))
  | F64.fin _, F64.inf _ => F64.fin 0
  | F64.fin a, F64.fin b =>
    if b = 0 then (if a = 0 then F64.nan else F64.inf (decide (a < 0)))
    else F64.round (a / b)

/-- IEEE 754 multiplication: `inf * 0` is NaN, a finite product is rounded. -/
def F64.mul : F64 → F64 → F64
  | F64.nan, _ => F64.nan
  | _, F64.nan => F64.nan
  | F64.inf s, F64.inf t => F64.inf (s != t)
  | F64.inf s, F64.fin b => if b = 0 then F64.nan else F64.inf (s != decide (b < 0))
  | F64.fin a, F64.inf t => if a = 0 then F64.nan else F64.inf (decide (a < 0) != t)
  | F64.fin a, F64.fin b => F64.round (a * b)

/-- The expression `float64(count)/float64(total)*100` of lines 121-122. -/
def percentage (count total : Nat) : F64 :=
  F64.mul (F64.div (F64.ofInt count) (F64.ofInt total)) (F64.ofInt 100)

/-- Where `main` stands. -/
inductive MainPc where
  /-- Before `go generateOrders(orderCh)` (line 95). -/
  | start
  /-- At the condition of `for i := 0; i < numWorkers; i++` (line 97). -/
  | spawnWorkers (i : Nat)
  /-- In `for result := range resultCh` (line 108). -/
  | aggregating
  /-- After the loop (lines 119-122). -/
  | finished
deriving DecidableEq

/-- Where the generator stands. -/
inductive GenPc where
  | notStarted
  /-- At the condition of `for i := 1; i <= numOrders; i++` (line 38). -/
  | loop (i : Nat)
  /-- After `close(orderCh)` (line 49). -/
  | finished
deriving DecidableEq

/-- Where a worker stands. -/
inductive WorkerPc where
  | notStarted
  /-- Blocked in `for order := range orderCh` (line 73). -/
  | receiving
  /-- Has received `order`; the retry loop (lines 74-81) has not run yet. -/
  | holding (order : Order)
  /-- Blocked in `resultCh <- result` (line 82). -/
  | sending (result : ProcessResult)
  /-- The loop is over and `wg.Done()` has run. -/
  | exited
deriving DecidableEq

/-- Where the coordinator stands. -/
inductive CoordPc where
  | notStarted
  /-- Blocked in `wg.Wait()` (line 103). -/
  | waiting
  /-- After `close(resultCh)` (line 104). -/
  | finished
deriving DecidableEq

/-- A state of the program.  `received`, `processed` and `resultCloses` are
history variables: the results the aggregator received so far, the pairs
(worker, order identifier) of the retry loops run so far, and how many times
`close(resultCh)` was executed. -/
structure Pipeline where
  main : MainPc
  gen : GenPc
  workers : Fin numWorkers → WorkerPc
  coord : CoordPc
  wg : Nat
  orderChClosed : Bool
  resultChClosed : Bool
  agg : AggState
  panicked : Bool
  received : List ProcessResult
  processed : List (Fin numWorkers × Int)
  resultCloses : Nat

/-- The state in which `main` starts. -/
def Pipeline.init : Pipeline :=
  { main := MainPc.start
    gen := GenPc.notStarted
    workers := fun _ => WorkerPc.notStarted
    coord := CoordPc.notStarted
    wg := 0
    orderChClosed := false
    resultChClosed := false
    agg := aggInit
    panicked := false
    received := []
    processed := []
    resultCloses := 0 }

/-- One step of the program. -/
inductive Action where
  /-- `go generateOrders(orderCh)`. -/
  | spawnGen
  /-- `wg.Add(1); go worker(i, orderCh, resultCh, &wg)`. -/
  | spawnWorker
  /-- The loop of line 97 ends; `go func() { wg.Wait(); close(resultCh) }()`. -/
  | spawnCoord
  /-- The generator runs one iteration with the draw `d`; worker `w` receives
  the order it sends. -/
  | genSend (w : Fin numWorkers) (d : GenDraw)
  /-- The loop of the generator ends; `close(orderCh)`. -/
  | genClose
  /-- Worker `w` runs the retry loop on the order it holds; `rnd` is what the
  environment returns to its `processOrder` calls. -/
  | process (w : Fin numWorkers) (rnd : Nat → ProcDraw)
  /-- Worker `w` executes `resultCh <- result`; the aggregator receives the
  result and runs the body of its loop. -/
  | deliver (w : Fin numWorkers)
  /-- Worker `w` finds `orderCh` closed; its loop ends and `wg.Done()` runs. -/
  | workerExit (w : Fin numWorkers)
  /-- The counter of the wait group is zero: `wg.Wait()` returns and the
  coordinator executes `close(resultCh)`. -/
  | coordClose
  /-- The aggregator finds `resultCh` closed; its loop ends. -/
  | mainExit

/-- The state after a run-time panic (a send on a closed channel, the close
of a closed channel, a negative wait-group counter). -/
def Pipeline.panic (s : Pipeline) : Pipeline := { s with panicked := true }

/-- The transition function: `step s a` is the state after action `a`, or
`none` when `a` cannot happen in `s` (the goroutine is elsewhere, or blocked).
A program that has panicked takes no further step. -/
def step (s : Pipeline) (a : Action) : Option Pipeline :=
  if s.panicked then none
  else
    match a with
    | Action.spawnGen =>
      match s.main with
      | MainPc.start => some { s with main := MainPc.spawnWorkers 0, gen := GenPc.loop 1 }
      | _ => none
    | Action.spawnWorker =>
      match s.main with
      | MainPc.spawnWorkers i =>
        if h : i < numWorkers then
          some { s with
            main := MainPc.spawnWorkers (i + 1)
            wg := s.wg + 1
            workers := Function.update s.workers ⟨i, h⟩ WorkerPc.receiving }
        else none
      | _ => none
    | Action.spawnCoord =>
      match s.main with
      | MainPc.spawnWorkers i =>
        if i < numWorkers then none
        else some { s with main := MainPc.aggregating, coord := CoordPc.waiting }
      | _ => none
    | Action.genSend w d =>
      match s.gen with
      | GenPc.loop i =>
        if i ≤ numOrders then
          if s.orderChClosed then some s.panic
          else
            match s.workers w with
            | WorkerPc.receiving =>
              some { s with
                gen := GenPc.loop (i + 1)
                workers := Function.update s.workers w (WorkerPc.holding (mkOrder i d)) }
            | _ => none
        else none
      | _ => none
    | Action.genClose =>
      match s.gen with
      | GenPc.loop i =>
        if i ≤ numOrders then none
        else if s.orderChClosed then some s.panic
        else some { s with gen := GenPc.finished, orderChClosed := true }
      | _ => none
    | Action.process w rnd =>
      match s.workers w with
      | WorkerPc.holding order =>
        some { s with
          workers := Function.update s.workers w
            (WorkerPc.sending (workerBody rnd 0 order).result)
          processed := s.processed ++ [(w, order.ID)] }
      | _ => none
    | Action.deliver w =>
      match s.workers w with
      | WorkerPc.sending result =>
        if s.resultChClosed then some s.panic
        else
          match s.main with
          | MainPc.aggregating =>
            some { s with
              workers := Function.update s.workers w WorkerPc.receiving
              agg := aggStep s.agg result
              received := s.received ++ [result] }
          | _ => none
      | _ => none
    | Action.workerExit w =>
      match s.workers w with
      | WorkerPc.receiving =>
        if s.orderChClosed then
          if s.wg = 0 then some s.panic
          else some { s with workers := Function.update s.workers w WorkerPc.exited,
                             wg := s.wg - 1 }
        else none
      | _ => none
    | Action.coordClose =>
      match s.coord with
      | CoordPc.waiting =>
        if s.wg = 0 then
          if s.resultChClosed then some s.panic
          else some { s with coord := CoordPc.finished, resultChClosed := true,
                             resultCloses := s.resultCloses + 1 }
        else none
      | _ => none
    | Action.mainExit =>
      match s.main with
      | MainPc.aggregating =>
        if s.resultChClosed then some { s with main := MainPc.finished } else none
      | _ => none

/-- The state after the actions `as`, taken one after the other from `s`;
`none` when one of them cannot happen. -/
def run (s : Pipeline) : List Action → Option Pipeline
  | [] => some s
  | a :: as =>
    match step s a with
    | some s' => run s' as
    | none => none

/-- The states of the executions of the program. -/
def Reachable (s : Pipeline) : Prop := ∃ as, run Pipeline.init as = some s

/-! ### Quantities of a state used to state its invariants -/

/-- Contribution of a worker to the wait-group counter: 1 between `wg.Add(1)`
and `wg.Done()`. -/
def WorkerPc.live : WorkerPc → Nat
  | WorkerPc.receiving => 1
  | WorkerPc.holding _ => 1
  | WorkerPc.sending _ => 1
  | _ => 0

/-- The identifier of the order a worker has in hand, if any. -/
def WorkerPc.ids : WorkerPc → Multiset Int
  | WorkerPc.holding order => {order.ID}
  | WorkerPc.sending result => {result.OrderID}
  | _ => 0

/-- The identifier of the order whose result a worker is sending, if any. -/
def WorkerPc.doneIds : WorkerPc → Multiset Int
  | WorkerPc.sending result => {result.OrderID}
  | _ => 0

/-- Number of steps a worker still takes, at most, without a new order. -/
def WorkerPc.cost : WorkerPc → Nat
  | WorkerPc.notStarted => 1
  | WorkerPc.receiving => 1
  | WorkerPc.holding _ => 3
  | WorkerPc.sending _ => 2
  | WorkerPc.exited => 0

/-- Number of orders the generator has sent. -/
def GenPc.sentCount : GenPc → Nat
  | GenPc.notStarted => 0
  | GenPc.loop i => i - 1
  | GenPc.finished => numOrders

/-- The identifiers `1, ..., n`. -/
def firstIds (n : Nat) : List Int := (List.range' 1 n).map (fun (i : Nat) => (i : Int))

def GenPc.cost : GenPc → Nat
  | GenPc.notStarted => 3 * numOrders + 1
  | GenPc.loop i => 3 * (numOrders + 1 - i) + 1
  | GenPc.finished => 0

def MainPc.cost : MainPc → Nat
  | MainPc.start => numWorkers + 3
  | MainPc.spawnWorkers i => numWorkers - i + 2
  | MainPc.aggregating => 1
  | MainPc.finished => 0

def CoordPc.cost : CoordPc → Nat
  | CoordPc.finished => 0
  | _ => 1

/-- A bound on the number of steps the program can still take. -/
def Pipeline.cost (s : Pipeline) : Nat :=
  s.main.cost + s.gen.cost + s.coord.cost + ∑ w, (s.workers w).cost

/-- The invariant of the pipeline. -/
structure Inv (s : Pipeline) : Prop where
  noPanic : s.panicked = false
  genStarted : s.gen = GenPc.notStarted ↔ s.main = MainPc.start
  genRange : ∀ i, s.gen = GenPc.loop i → 1 ≤ i ∧ i ≤ numOrders + 1
  genClosed : s.orderChClosed = true ↔ s.gen = GenPc.finished
  spawnRange : ∀ i, s.main = MainPc.spawnWorkers i → i ≤ numWorkers
  workersStarted : ∀ w : Fin numWorkers, s.workers w = WorkerPc.notStarted ↔
    (s.main = MainPc.start ∨ ∃ i, s.main = MainPc.spawnWorkers i ∧ i ≤ w.val)
  wgCount : s.wg = ∑ w, (s.workers w).live
  coordStarted : s.coord = CoordPc.notStarted ↔
    (s.main = MainPc.start ∨ ∃ i, s.main = MainPc.spawnWorkers i)
  closedIff : s.resultChClosed = true ↔ s.coord = CoordPc.finished
  closedExited : s.coord = CoordPc.finished → ∀ w, s.workers w = WorkerPc.exited
  exitedClosed : ∀ w, s.workers w = WorkerPc.exited → s.orderChClosed = true
  mainFinished : s.main = MainPc.finished → s.resultChClosed = true
  closes : s.resultCloses = if s.resultChClosed then 1 else 0
  aggOk : s.agg = aggregate s.received
  conservation :
    ((s.received.map (fun r => r.OrderID) : List Int) : Multiset Int) +
      ∑ w, (s.workers w).ids = (firstIds s.gen.sentCount : Multiset Int)
  processedOk :
    ((s.processed.map Prod.snd : List Int) : Multiset Int) =
      ((s.received.map (fun r => r.OrderID) : List Int) : Multiset Int) +
        ∑ w, (s.workers w).doneIds

/-! ## Auxiliary definitions: closed forms and sample inputs -/

/-- A draw on which `processOrder` fails (`0 > 0.2` is false). -/
def failDraw : ProcDraw := { sleep := 0, u := 0, elapsed := 0 }

/-- A draw on which `processOrder` succeeds (`1/2 > 0.2`). -/
def okDraw : ProcDraw := { sleep := 0, u := 1 / 2, elapsed := 0 }

def sampleOrder : Order :=
  { ID := 7, CustomerName := "Anna", Items := ["Laptop"], TotalAmount := 150 }

/-- The results a worker sends, one per received order: each is the final
value of `result` of the body run for that order. -/
def workerResults (rnd : Nat → ProcDraw) : List Order → Nat → List ProcessResult
  | [], _ => []
  | order :: rest, pos =>
    (workerBody rnd pos order).result :: workerResults rnd rest (workerBody rnd pos order).pos

/-- The events of the iterations whose loop variable runs through `js`. -/
def genEvents (rnd : Nat → GenDraw) : List Nat → List GEvent
  | [] => []
  | j :: t =>
    GEvent.sleep (rnd j).delay.val :: GEvent.print (mkOrder j (rnd j)) ::
      GEvent.send (mkOrder j (rnd j)) :: genEvents rnd t

def sampleGenDraw : GenDraw :=
  { delay := ⟨0, by decide⟩, customer := ⟨0, by decide⟩, item := ⟨0, by decide⟩,
    amount := ⟨0, by decide⟩, frac := 0 }

def allWorkers : List (Fin numWorkers) :=
  [⟨0, by decide⟩, ⟨1, by decide⟩, ⟨2, by decide⟩, ⟨3, by decide⟩, ⟨4, by decide⟩]

/-- A draw stream on which the first `processOrder` call fails and the
second succeeds. -/
def secondTryDraws : Nat → ProcDraw := fun i => if i = 0 then failDraw else okDraw

/-- One round of an execution: every worker receives an order, every worker
runs its retry loop, every worker delivers its result. -/
def sampleRound : List Action :=
  allWorkers.map (fun w => Action.genSend w sampleGenDraw) ++
  allWorkers.map (fun w => Action.process w secondTryDraws) ++
  allWorkers.map (fun w => Action.deliver w)

/-- A complete execution of the program: start-up, four rounds of five orders,
shutdown. -/
def sampleSchedule : List Action :=
  [Action.spawnGen, Action.spawnWorker, Action.spawnWorker, Action.spawnWorker,
   Action.spawnWorker, Action.spawnWorker, Action.spawnCoord] ++
  sampleRound ++ sampleRound ++ sampleRound ++ sampleRound ++
  [Action.genClose] ++ allWorkers.map (fun w => Action.workerExit w) ++
  [Action.coordClose, Action.mainExit]

end Lab4

namespace Lab1

/-! ## The PESEL generator (`lab1/zad1.go`) -/

/-- The value a Go `int` (64 bits, two's complement) takes for the
mathematical result `x` of an arithmetic operation. -/
def wrap64 (x : Int) : Int := (x + 2 ^ 63) % 2 ^ 64 - 2 ^ 63

/-- What `GenerujPESEL` reads of its argument `birthDate`: `Year()`,
`int(Month())` and `Day()`.  A `time.Time` has a month between 1 and 12 and
a day between 1 and 31. -/
structure Date where
  year : Int
  month : Int
  day : Int
  month_ok : 1 ≤ month ∧ month ≤ 12
  day_ok : 1 ≤ day ∧ day ≤ 31

/-- What the environment returns during one call of `GenerujPESEL`:
`rand.Intn(1000)` and the `rand.Intn(5)` of the branch taken. -/
structure PeselDraw where
  serial : Fin 1000
  gender : Fin 5

/-- The type `[11]int`. -/
abbrev Pesel := Fin 11 → Int

/-- The slice `wagi`. -/
def wagi : Fin 10 → Int := ![1, 3, 7, 9, 1, 3, 7, 9, 1, 3]

/-- The loop `for i := 0; i < 10; i++ { suma += pesel[i] * wagi[i] }`, entered
with the loop variable equal to `i`. -/
def sumaLoop (pesel : Pesel) (i : Nat) (suma : Int) : Int :=
  if h : i < 10 then
    sumaLoop pesel (i + 1) (wrap64 (suma + wrap64 (pesel ⟨i, by omega⟩ * wagi ⟨i, h⟩)))
  else suma
termination_by 10 - i

def ObliczCyfreKontrolna (pesel : Pesel) : Int :=
  let suma := sumaLoop pesel 0 0
  let kontrolna := (10 - suma.tmod 10).tmod 10
  kontrolna

def WeryfikujPESEL (pesel : Pesel) : Bool :=
  decide (pesel 10 = ObliczCyfreKontrolna pesel)

/-- The month after the `switch` on the century (lines 16-25). -/
def monthCode (year month : Int) : Int :=
  if year ≥ 1800 ∧ year ≤ 1899 then month + 80
  else if year ≥ 2000 ∧ year ≤ 2099 then month + 20
  else if year ≥ 2100 ∧ year ≤ 2199 then month + 40
  else if year ≥ 2200 ∧ year ≤ 2299 then month + 60
  else month

def GenerujPESEL (birthDate : Date) (gender : String) (d : PeselDraw) : Pesel :=
  let pesel : Pesel := fun _ => 0
  let year := birthDate.year
  let month := monthCode year birthDate.month
  let day := birthDate.day
  let yearShort := year.tmod 100
  let pesel := Function.update pesel 0 (yearShort.tdiv 10)
  let pesel := Function.update pesel 1 (yearShort.tmod 10)
  let pesel := Function.update pesel 2 (month.tdiv 10)
  let pesel := Function.update pesel 3 (month.tmod 10)
  let pesel := Function.update pesel 4 (day.tdiv 10)
  let pesel := Function.update pesel 5 (day.tmod 10)
  let serial : Int := (d.serial.val : Int)
  let pesel := Function.update pesel 6 (serial.tdiv 100)
  let pesel := Function.update pesel 7 ((serial.tdiv 10).tmod 10)
  let pesel := Function.update pesel 8 (serial.tmod 10)
  let pesel :=
    if gender = "M" then Function.update pesel 9 ((d.gender.val : Int) * 2 + 1)
    else Function.update pesel 9 ((d.gender.val : Int) * 2)
  let pesel := Function.update pesel 10 (ObliczCyfreKontrolna pesel)
  pesel

/-- The date of `main`: 2 June 2005. -/
def sampleDate : Date :=
  { year := 2005, month := 6, day := 2, month_ok := by decide, day_ok := by decide }

/-! ## Auxiliary definitions: the exact weighted sum and sample inputs -/

/-- The weighted sum of the first ten elements, as an exact integer (no
wrap-around). -/
def weightedSum (p : Pesel) : Int :=
  p 0 * 1 + p 1 * 3 + p 2 * 7 + p 3 * 9 + p 4 * 1 + p 5 * 3 + p 6 * 7 + p 7 * 9 + p 8 * 1 +
    p 9 * 3

/-- An array of eleven `int`s whose weighted sum does not fit in 64 bits:
the largest `int`, then `1`, then zeros. -/
def overflowPesel : Pesel := ![9223372036854775807, 1, 0, 0, 0, 0, 0, 0, 0, 0, 0]

/-- The largest `int`, then zeros: the weighted sum fits in an `int`, the sum
plus the check digit does not. -/
def maxPesel : Pesel := ![9223372036854775807, 0, 0, 0, 0, 0, 0, 0, 0, 0, 0]

/-- A valid PESEL: the digits 0 5 2 6 0 2 1 2 3 5 8. -/
def samplePesel : Pesel := ![0, 5, 2, 6, 0, 2, 1, 2, 3, 5, 8]

/-- The draw with serial number 123 and gender draw 2. -/
def samplePeselDraw : PeselDraw := { serial := ⟨123, by decide⟩, gender := ⟨2, by decide⟩ }

/-- The date 31 December 1899. -/
def sampleDate1899 : Date :=
  { year := 1899, month := 12, day := 31, month_ok := by decide, day_ok := by decide }

end Lab1

namespace Lab2

/-! ## The CSV utility (`lab2/zad2.go`): `sortByCodeCPV` (lines 56-61) -/

/-- A Go string: a sequence of bytes. -/
abbrev GoString := List (Fin 256)

/-- The struct `Product`. -/
structure Product where
  CodeCPV : GoString
  DE_Label : GoString
  EN_Label : GoString
  ES_Label : GoString
  FR_Label : GoString
  PT_Label : GoString
  ShortCode : GoString
deriving DecidableEq

/-- Comparison of two Go strings: byte by byte, and the shorter string first
when one is the beginning of the other. -/
def strCompare : GoString → GoString → Ordering
  | [], [] => Ordering.eq
  | [], _ :: _ => Ordering.lt
  | _ :: _, [] => Ordering.gt
  | a :: as, b :: bs =>
    if a < b then Ordering.lt
    else if b < a then Ordering.gt
    else strCompare as bs

/-- The operator `<` on Go strings. -/
def strLess (a b : GoString) : Bool :=
  match strCompare a b with
  | Ordering.lt => true
  | _ => false

/-- The operator `<=` on Go strings. -/
def strLeq (a b : GoString) : Bool :=
  match strCompare a b with
  | Ordering.gt => false
  | _ => true

/-- The requirement of `sort.Slice` on its argument `less`: a strict weak
ordering (irreflexive, transitive, with a transitive incomparability). -/
structure StrictWeakOrder {α : Type} (less : α → α → Bool) : Prop where
  irrefl : ∀ a, less a a = false
  trans : ∀ a b c, less a b = true → less b c = true → less a c = true
  incomp : ∀ a b c, less a b = false → less b a = false → less b c = false →
    less c b = false → less a c = false ∧ less c a = false

/-- What the Go standard library promises of `sort.Slice`, which is not part
of the repository: called with a strict weak ordering, it leaves in the slice
a permutation of its elements in which no element is less than the one
before it (`sort.SliceIsSorted`).  `sortSlice less xs` stands for the contents
of the slice after `sort.Slice(xs, less)`, with `less` read on elements. -/
def SortSliceContract (sortSlice : (Product → Product → Bool) → List Product → List Product) :
    Prop :=
  ∀ (less : Product → Product → Bool) (xs : List Product), StrictWeakOrder less →
    (sortSlice less xs).Perm xs ∧
    List.Chain' (fun a b => less b a = false) (sortSlice less xs)

/-- The function `sortByCodeCPV`; `sortSlice` is `sort.Slice`, and the result
is the contents of `products` after the call. -/
def sortByCodeCPV (sortSlice : (Product → Product → Bool) → List Product → List Product)
    (products : List Product) : List Product :=
  sortSlice (fun a b => strLess a.CodeCPV b.CodeCPV) products

/-- A sorting function that meets the contract of `sort.Slice`: insertion
sort. -/
def insertionSortSlice (less : Product → Product → Bool) (xs : List Product) : List Product :=
  List.insertionSort (fun a b => less b a = false) xs

/-- A product with the given code (as bytes) and English label. -/
def sampleProduct (code label : GoString) : Product :=
  { CodeCPV := code, DE_Label := [], EN_Label := label, ES_Label := [], FR_Label := [],
    PT_Label := [], ShortCode := [] }

/-- Three products with the codes `"31"`, `"03"` and `"3"`. -/
def sampleProducts : List Product :=
  [sampleProduct [51, 49] [97], sampleProduct [48, 51] [98], sampleProduct [51] [99]]

end Lab2

namespace Lab3

/-! ## The in-memory file system (`lab3/zad3.go`)

Values of type `time.Time` are instants, natural numbers here.  A call of
`time.Now()` returns a value of the environment: every operation takes a
`clock`, and `clock k` is what its `k`-th call of `time.Now()` returns.

Items are values.  The operations below never change an item after it was
stored in a directory, and the name of an item never changes (no method
assigns the field `name`), so sharing through pointers is not observable by
them.  An item handed to `AddItem` is a non-nil interface value, and a
directory is one made by `NewDirectory`, whose map is not nil. -/

abbrev Time := Nat

/-- The package-level error values (lines 36-43). -/
inductive Error where
  | ErrItemExists
  | ErrItemNotFound
  | ErrNotImplemented
  | ErrPermissionDenied
  | ErrNotDirectory
  | ErrIsDirectory
deriving DecidableEq

/-- A Go `map[string]V`, as the list of its entries.  A map has one entry per
key (`GoMap.WF`); the order of the list has no meaning. -/
abbrev GoMap (V : Type) := List (String × V)

/-- The map has at most one entry per key. -/
def GoMap.WF {V : Type} (m : GoMap V) : Prop := (m.map Prod.fst).Nodup

/-- The index expression `m[k]` in its two-valued form: the value and
whether the key is present. -/
def GoMap.get {V : Type} (m : GoMap V) (k : String) : Option V :=
  (m.find? (fun e => e.1 == k)).map Prod.snd

/-- The assignment `m[k] = v`. -/
def GoMap.set {V : Type} (m : GoMap V) (k : String) (v : V) : GoMap V :=
  (k, v) :: m.filter (fun e => !(e.1 == k))

/-- The call `delete(m, k)`. -/
def GoMap.delete {V : Type} (m : GoMap V) (k : String) : GoMap V :=
  m.filter (fun e => !(e.1 == k))

/-- The struct `File`. -/
structure File where
  name : String
  path : String
  createdAt : Time
  modifiedAt : Time
  content : List (Fin 256)
deriving DecidableEq

/-- The struct `DirectoryImpl`; `ι` is the type of the values of
`FileSystemItem`, and `items` is a `GoMap ι`. -/
structure DirectoryImpl (ι : Type) where
  name : String
  path : String
  createdAt : Time
  modifiedAt : Time
  items : List (String × ι)

/-- The struct `SymLink`; the interface value `target` may be nil. -/
structure SymLink (ι : Type) where
  name : String
  path : String
  createdAt : Time
  modifiedAt : Time
  target : Option ι

/-- The non-nil values of the interface `FileSystemItem`: a `*File`, a
`*ReadOnlyFile`, a `*DirectoryImpl` or a `*SymLink`. -/
inductive Item where
  | file (f : File)
  | readOnlyFile (f : File)
  | directory (d : DirectoryImpl Item)
  | symLink (s : SymLink Item)

/-- The method `Name()` of the four implementations (`ReadOnlyFile` has the
one of the embedded `File`). -/
def Item.Name : Item → String
  | Item.file f => f.name
  | Item.readOnlyFile f => f.name
  | Item.directory d => d.name
  | Item.symLink s => s.name

/-- The method `Path()`. -/
def Item.Path : Item → String
  | Item.file f => f.path
  | Item.readOnlyFile f => f.path
  | Item.directory d => d.path
  | Item.symLink s => s.path

def NewDirectory (name path : String) (clock : Nat → Time) : DirectoryImpl Item :=
  { name := name, path := path, createdAt := clock 0, modifiedAt := clock 1, items := [] }

/-- The method `Size()` of `DirectoryImpl`: `int64(len(d.items))`. -/
def DirectoryImpl.Size (d : DirectoryImpl Item) : Int := (d.items.length : Int)

/-- The method `AddItem`: the directory after the call and the error
returned; `now` is what `time.Now()` returns. -/
def DirectoryImpl.AddItem (d : DirectoryImpl Item) (item : Item) (now : Time) :
    DirectoryImpl Item × Option Error :=
  if (GoMap.get d.items item.Name).isSome then (d, some Error.ErrItemExists)
  else ({ d with items := GoMap.set d.items item.Name item, modifiedAt := now }, none)

/-- The method `RemoveItem`. -/
def DirectoryImpl.RemoveItem (d : DirectoryImpl Item) (name : String) (now : Time) :
    DirectoryImpl Item × Option Error :=
  if !(GoMap.get d.items name).isSome then (d, some Error.ErrItemNotFound)
  else ({ d with items := GoMap.delete d.items name, modifiedAt := now }, none)

/-- The method `Items`.  A `range` over a map visits its entries in an order
that Go leaves unspecified: `visited` is the entries of `d.items` in the order
of this call, a permutation of `d.items` (`IterationOrder`). -/
def DirectoryImpl.Items (_d : DirectoryImpl Item) (visited : GoMap Item) : List Item :=
  visited.foldl (fun result e => result ++ [e.2]) []

/-- The list `visited` is a possible iteration order of the map of `d`. -/
def IterationOrder (d : DirectoryImpl Item) (visited : GoMap Item) : Prop :=
  visited.Perm d.items

/-- The struct `VirtualFileSystem`. -/
structure VirtualFileSystem where
  root : DirectoryImpl Item

def NewVirtualFileSystem (clock : Nat → Time) : VirtualFileSystem :=
  { root := NewDirectory "root" "/" clock }

/-- The method `CreateFile`: the file system after the call, the item and the
error returned. -/
def VirtualFileSystem.CreateFile (vfs : VirtualFileSystem) (name path : String)
    (readOnly : Bool) (clock : Nat → Time) : VirtualFileSystem × Item × Option Error :=
  let file : Item :=
    if readOnly then
      Item.readOnlyFile
        { name := name, path := path, createdAt := clock 0, modifiedAt := clock 1,
          content := [] }
    else
      Item.file
        { name := name, path := path, createdAt := clock 0, modifiedAt := clock 1,
          content := [] }
  ({ root := (vfs.root.AddItem file (clock 2)).1 }, file, (vfs.root.AddItem file (clock 2)).2)

/-- The method `CreateDirectory`. -/
def VirtualFileSystem.CreateDirectory (vfs : VirtualFileSystem) (name path : String)
    (clock : Nat → Time) : VirtualFileSystem × Item × Option Error :=
  let dir : Item := Item.directory (NewDirectory name path clock)
  ({ root := (vfs.root.AddItem dir (clock 2)).1 }, dir, (vfs.root.AddItem dir (clock 2)).2)

/-- The method `CreateSymLink`. -/
def VirtualFileSystem.CreateSymLink (vfs : VirtualFileSystem) (name path : String)
    (target : Option Item) (clock : Nat → Time) : VirtualFileSystem × Item × Option Error :=
  let link : Item :=
    Item.symLink
      { name := name, path := path, createdAt := clock 0, modifiedAt := clock 1,
        target := target }
  ({ root := (vfs.root.AddItem link (clock 2)).1 }, link, (vfs.root.AddItem link (clock 2)).2)

/-- The method `FindItem`; `visited` is the order in which the `range` of
`vfs.root.Items()` visits the entries of the root. -/
def VirtualFileSystem.FindItem (vfs : VirtualFileSystem) (visited : GoMap Item)
    (name : String) : Option Item × Option Error :=
  match (vfs.root.Items visited).find? (fun item => item.Name == name) with
  | some item => (some item, none)
  | none => (none, some Error.ErrItemNotFound)

/-- The method `DeleteItem`. -/
def VirtualFileSystem.DeleteItem (vfs : VirtualFileSystem) (name : String)
    (clock : Nat → Time) : VirtualFileSystem × Option Error :=
  ({ root := (vfs.root.RemoveItem name (clock 0)).1 }, (vfs.root.RemoveItem name (clock 0)).2)

/-- A call of one of the four operations that change a file system. -/
inductive Op where
  | createFile (name path : String) (readOnly : Bool) (clock : Nat → Time)
  | createDirectory (name path : String) (clock : Nat → Time)
  | createSymLink (name path : String) (target : Option Item) (clock : Nat → Time)
  | deleteItem (name : String) (clock : Nat → Time)

/-- The file system after the call `op`. -/
def VirtualFileSystem.apply (vfs : VirtualFileSystem) : Op → VirtualFileSystem
  | Op.createFile name path readOnly clock => (vfs.CreateFile name path readOnly clock).1
  | Op.createDirectory name path clock => (vfs.CreateDirectory name path clock).1
  | Op.createSymLink name path target clock => (vfs.CreateSymLink name path target clock).1
  | Op.deleteItem name clock => (vfs.DeleteItem name clock).1

/-- The file system after the calls `ops`, made one after the other on a new
file system. -/
def runOps (clock : Nat → Time) (ops : List Op) : VirtualFileSystem :=
  ops.foldl VirtualFileSystem.apply (NewVirtualFileSystem clock)

/-- The error a call returns. -/
def VirtualFileSystem.errorOf (vfs : VirtualFileSystem) : Op → Option Error
  | Op.createFile name path readOnly clock => (vfs.CreateFile name path readOnly clock).2.2
  | Op.createDirectory name path clock => (vfs.CreateDirectory name path clock).2.2
  | Op.createSymLink name path target clock => (vfs.CreateSymLink name path target clock).2.2
  | Op.deleteItem name clock => (vfs.DeleteItem name clock).2

/-- The item a `Create...` call returns. -/
def VirtualFileSystem.createdBy (vfs : VirtualFileSystem) : Op → Option Item
  | Op.createFile name path readOnly clock => some (vfs.CreateFile name path readOnly clock).2.1
  | Op.createDirectory name path clock => some (vfs.CreateDirectory name path clock).2.1
  | Op.createSymLink name path target clock =>
    some (vfs.CreateSymLink name path target clock).2.1
  | Op.deleteItem _ _ => none

/-- The name a call is about. -/
def Op.name : Op → String
  | Op.createFile name _ _ _ => name
  | Op.createDirectory name _ _ => name
  | Op.createSymLink name _ _ _ => name
  | Op.deleteItem name _ => name

/-- Every entry of the map is stored under the name of its item. -/
def NamedByKey (m : GoMap Item) : Prop := ∀ e ∈ m, e.2.Name = e.1

/-- A clock for the samples: the `k`-th call returns `k`. -/
def sampleClock : Nat → Time := fun k => k

/-- The file `plik.txt` of `main`, empty. -/
def sampleFile : Item :=
  Item.file { name := "plik.txt", path := "/plik.txt", createdAt := 0, modifiedAt := 0,
              content := [] }

/-- A directory with the entry `plik.txt`. -/
def sampleDirectory : DirectoryImpl Item :=
  { name := "root", path := "/", createdAt := 0, modifiedAt := 0,
    items := [("plik.txt", sampleFile)] }

/-- Five calls: two files, a directory under a name in use, a link to the
first file, the deletion of the second file. -/
def sampleOps : List Op :=
  [Op.createFile "plik.txt" "/plik.txt" false sampleClock,
   Op.createFile "readme.md" "/readme.md" true sampleClock,
   Op.createDirectory "plik.txt" "/plik.txt" sampleClock,
   Op.createSymLink "link-do-pliku" "/link-do-pliku" (some sampleFile) sampleClock,
   Op.deleteItem "readme.md" sampleClock]

/-- The link that `sampleOps` creates. -/
def sampleLink : Item :=
  Item.symLink { name := "link-do-pliku", path := "/link-do-pliku", createdAt := 0,
                 modifiedAt := 1, target := some sampleFile }

/-- The file `plik.txt` that `sampleOps` creates. -/
def sampleCreatedFile : Item :=
  Item.file { name := "plik.txt", path := "/plik.txt", createdAt := 0, modifiedAt := 1,
              content := [] }

end Lab3

/-! # Theorems -/

namespace Lab4

/-! ## The worker -/

/-- The four ways the body of the worker loop can run, with the state it ends
in: success at the first, second or third attempt, or three failures. -/
theorem workerBody_cases (rnd : Nat → ProcDraw) (pos : Nat) (order : Order) :
    ((processOrder order (rnd pos)).Success = true ∧
      workerBody rnd pos order =
        { result := processOrder order (rnd pos), pos := pos + 1,
          trace := [WEvent.invoke order (processOrder order (rnd pos)),
                    WEvent.send (processOrder order (rnd pos))] }) ∨
    ((processOrder order (rnd pos)).Success = false ∧
      (processOrder order (rnd (pos + 1))).Success = true ∧
      workerBody rnd pos order =
        { result := processOrder order (rnd (pos + 1)), pos := pos + 2,
          trace := [WEvent.invoke order (processOrder order (rnd pos)),
                    WEvent.print (retryLine 1 order.ID),
                    WEvent.invoke order (processOrder order (rnd (pos + 1))),
                    WEvent.send (processOrder order (rnd (pos + 1)))] }) ∨
    ((processOrder order (rnd pos)).Success = false ∧
      (processOrder order (rnd (pos + 1))).Success = false ∧
      (processOrder order (rnd (pos + 2))).Success = true ∧
      workerBody rnd pos order =
        { result := processOrder order (rnd (pos + 2)), pos := pos + 3,
          trace := [WEvent.invoke order (processOrder order (rnd pos)),
                    WEvent.print (retryLine 1 order.ID),
                    WEvent.invoke order (processOrder order (rnd (pos + 1))),
                    WEvent.print (retryLine 2 order.ID),
                    WEvent.invoke order (processOrder order (rnd (pos + 2))),
                    WEvent.send (processOrder order (rnd (pos + 2)))] }) ∨
    ((processOrder order (rnd pos)).Success = false ∧
      (processOrder order (rnd (pos + 1))).Success = false ∧
      (processOrder order (rnd (pos + 2))).Success = false ∧
      workerBody rnd pos order =
        { result := processOrder order (rnd (pos + 2)), pos := pos + 3,
          trace := [WEvent.invoke order (processOrder order (rnd pos)),
                    WEvent.print (retryLine 1 order.ID),
                    WEvent.invoke order (processOrder order (rnd (pos + 1))),
                    WEvent.print (retryLine 2 order.ID),
                    WEvent.invoke order (processOrder order (rnd (pos + 2))),
                    WEvent.print (retryLine 3 order.ID),
                    WEvent.send (processOrder order (rnd (pos + 2)))] }) := by
  unfold workerBody
  rw [retryLoop]
  simp only [maxRetries, show (1:Nat) ≤ 3 by decide, if_true]
  by_cases h1 : (processOrder order (rnd pos)).Success = true
  · left; simp [h1]
  · right
    rw [retryLoop]
    simp only [maxRetries, show (1+1:Nat) ≤ 3 by decide, if_true]
    by_cases h2 : (processOrder order (rnd (pos + 1))).Success = true
    · left; simp [h1, h2]
    · right
      rw [retryLoop]
      simp only [maxRetries, show (1+1+1:Nat) ≤ 3 by decide, if_true]
      by_cases h3 : (processOrder order (rnd (pos + 1 + 1))).Success = true
      · left; simp [h1, h2, h3]
      · right
        rw [retryLoop]
        simp [h1, h2, h3, maxRetries]

theorem processOrder_failDraw (o : Order) : (processOrder o failDraw).Success = false := by
  simp [processOrder, failDraw, successThreshold]
  norm_num

theorem processOrder_okDraw (o : Order) : (processOrder o okDraw).Success = true := by
  simp [processOrder, okDraw, successThreshold]
  norm_num

/-- Claim C1. For every order and every sequence of outcomes of the successive
`processOrder` calls, the retry loop of the worker calls `processOrder` `n`
times with `1 ≤ n ≤ maxRetries`; the calls consume successive draws; every
call other than the last one failed (no call follows a success); fewer than
`maxRetries` calls are made only if the last one succeeded; `n` is the index
of the first success when that index is at most `maxRetries`, and
`maxRetries` when all of the first `maxRetries` calls fail. -/
theorem worker_retry_invocation_bounds (rnd : Nat → ProcDraw) (pos : Nat) (order : Order) :
    1 ≤ invocationCount rnd pos order ∧
    invocationCount rnd pos order ≤ maxRetries ∧
    invocations (workerBody rnd pos order).trace =
      (List.range (invocationCount rnd pos order)).map
        (fun i => processOrder order (rnd (pos + i))) ∧
    (∀ i, i + 1 < invocationCount rnd pos order →
      (processOrder order (rnd (pos + i))).Success = false) ∧
    (invocationCount rnd pos order < maxRetries →
      (processOrder order (rnd (pos + (invocationCount rnd pos order - 1)))).Success = true) ∧
    (∀ k, 1 ≤ k → k ≤ maxRetries →
      (processOrder order (rnd (pos + (k - 1)))).Success = true →
      (∀ i, i + 1 < k → (processOrder order (rnd (pos + i))).Success = false) →
      invocationCount rnd pos order = k) ∧
    ((∀ i, i < maxRetries → (processOrder order (rnd (pos + i))).Success = false) →
      invocationCount rnd pos order = maxRetries) := by
  unfold invocationCount
  rcases workerBody_cases rnd pos order with ⟨h1, e⟩ | ⟨h1, h2, e⟩ | ⟨h1, h2, h3, e⟩ |
    ⟨h1, h2, h3, e⟩ <;>
  · rw [e]
    simp only [invocations, List.length_cons, List.length_nil, maxRetries]
    refine ⟨by omega, by omega, by simp [List.range_succ], ?_, ?_, ?_, ?_⟩
    · intro i hi
      rcases (show i = 0 ∨ i = 1 by omega) with rfl | rfl <;> simp_all
    · intro h
      first
        | omega
        | simp_all
    · intro k hk1 hk3 hs hf
      rcases (show k = 1 ∨ k = 2 ∨ k = 3 by omega) with rfl | rfl | rfl
      · first
          | rfl
          | (simp_all)
      · first
          | rfl
          | (have h0 := hf 0 (by omega); simp_all)
      · first
          | rfl
          | (have h0 := hf 0 (by omega); have h1 := hf 1 (by omega); simp_all)
    · intro hf
      first
        | rfl
        | (have h0 := hf 0 (by omega); have h1 := hf 1 (by omega); have h2 := hf 2 (by omega); simp_all)

theorem errorMessage_ne_empty (id : Int) :
    "błąd przetwarzania zamówienia " ++ toString id ≠ "" := by
  intro h
  have hl := congrArg String.length h
  rw [String.length_append] at hl
  have : ("błąd przetwarzania zamówienia ").length = 30 := by decide
  rw [this] at hl
  simp at hl

theorem processOrder_ids (order : Order) (d : ProcDraw) :
    (processOrder order d).OrderID = order.ID ∧
    (processOrder order d).CustomerName = order.CustomerName := by
  simp [processOrder]

theorem processOrder_error_of_failure (order : Order) (d : ProcDraw)
    (h : (processOrder order d).Success = false) :
    (processOrder order d).Error = some ("błąd przetwarzania zamówienia " ++ toString order.ID) := by
  simp only [processOrder] at h ⊢
  simp [h]

theorem processOrder_error_of_success (order : Order) (d : ProcDraw)
    (h : (processOrder order d).Success = true) :
    (processOrder order d).Error = none := by
  simp only [processOrder] at h ⊢
  simp [h]

theorem sent_append (a b : List WEvent) : sent (a ++ b) = sent a ++ sent b := by
  induction a with
  | nil => rfl
  | cons e t ih => cases e <;> simp [sent, ih]

theorem sent_workerBody (rnd : Nat → ProcDraw) (pos : Nat) (order : Order) :
    sent (workerBody rnd pos order).trace = [(workerBody rnd pos order).result] := by
  rcases workerBody_cases rnd pos order with ⟨_, e⟩ | ⟨_, _, e⟩ | ⟨_, _, _, e⟩ | ⟨_, _, _, e⟩ <;>
  · rw [e]; simp [sent]

/-- The result the worker sends for an order is the result of the last
`processOrder` call made for it. -/
theorem workerBody_result (rnd : Nat → ProcDraw) (pos : Nat) (order : Order) :
    (workerBody rnd pos order).result =
      processOrder order (rnd (pos + (invocationCount rnd pos order - 1))) := by
  unfold invocationCount
  rcases workerBody_cases rnd pos order with ⟨_, e⟩ | ⟨_, _, e⟩ | ⟨_, _, _, e⟩ | ⟨_, _, _, e⟩ <;>
  · rw [e]; simp [invocations]

/-- Claim C2. For every order whose `maxRetries = 3` calls of `processOrder`
all fail, the worker sends exactly one result; it is the result returned by
the last (third) call, its `Success` is false and its `Error` is non-nil with
a non-empty message (the message of `processOrder` for this order). -/
theorem worker_exhausted_emits_last_failure (rnd : Nat → ProcDraw) (pos : Nat) (order : Order)
    (hfail : ∀ i, i < maxRetries → (processOrder order (rnd (pos + i))).Success = false) :
    sent (workerBody rnd pos order).trace = [processOrder order (rnd (pos + (maxRetries - 1)))] ∧
    invocationCount rnd pos order = maxRetries ∧
    (processOrder order (rnd (pos + (maxRetries - 1)))).Success = false ∧
    (processOrder order (rnd (pos + (maxRetries - 1)))).Error ≠ none ∧
    (∃ msg, (processOrder order (rnd (pos + (maxRetries - 1)))).Error = some msg ∧ msg ≠ "" ∧
      msg = "błąd przetwarzania zamówienia " ++ toString order.ID) := by
  have h0 := hfail 0 (by decide)
  have h1 := hfail 1 (by decide)
  have h2 := hfail 2 (by decide)
  simp only [Nat.add_zero] at h0
  have herr := processOrder_error_of_failure order (rnd (pos + 2)) h2
  rw [sent_workerBody]
  unfold invocationCount
  rcases workerBody_cases rnd pos order with ⟨s1, _⟩ | ⟨_, s2, _⟩ | ⟨_, _, s3, _⟩ | ⟨_, _, _, e⟩
  · rw [h0] at s1; cases s1
  · rw [h1] at s2; cases s2
  · rw [h2] at s3; cases s3
  · rw [e]
    simp only [maxRetries, invocations, List.length_cons, List.length_nil]
    refine ⟨trivial, trivial, h2, ?_, _, herr, errorMessage_ne_empty order.ID, rfl⟩
    rw [herr]; simp

theorem worker_exhausted_emits_last_failure_witness :
    (∀ i, i < maxRetries →
      (processOrder sampleOrder ((fun _ => failDraw) (0 + i))).Success = false) ∧
    sent (workerBody (fun _ => failDraw) 0 sampleOrder).trace =
      [{ OrderID := 7, CustomerName := "Anna", Success := false, ProcessTime := 0,
         Error := some "błąd przetwarzania zamówienia 7" }] :=
  ⟨fun _ _ => processOrder_failDraw sampleOrder,
   by
    have h := (worker_exhausted_emits_last_failure (fun _ => failDraw) 0 sampleOrder
      (fun _ _ => processOrder_failDraw sampleOrder)).1
    rw [h]
    simp [processOrder, failDraw, sampleOrder, successThreshold]
    norm_num
    decide⟩

/-- Claim C3. If `processOrder` fails on attempts `1..k-1` and succeeds on
attempt `k` (`1 ≤ k ≤ maxRetries`), the worker sends exactly the result of
attempt `k`, with `Success = true` and `Error = nil`; and every result a
worker sends, for any orders and outcomes, has `Error` non-nil if and only if
`Success` is false. -/
theorem worker_success_has_no_error (rnd : Nat → ProcDraw) (pos : Nat) (order : Order) :
    (∀ k, 1 ≤ k → k ≤ maxRetries →
      (∀ i, i + 1 < k → (processOrder order (rnd (pos + i))).Success = false) →
      (processOrder order (rnd (pos + (k - 1)))).Success = true →
      sent (workerBody rnd pos order).trace = [processOrder order (rnd (pos + (k - 1)))] ∧
      (workerBody rnd pos order).result.Success = true ∧
      (workerBody rnd pos order).result.Error = none) ∧
    (∀ (orders : List Order) (pos0 : Nat), ∀ r ∈ sent (worker rnd orders pos0),
      (r.Error ≠ none ↔ r.Success = false)) := by
  constructor
  · intro k hk1 hk3 hf hs
    have hres : (workerBody rnd pos order).result = processOrder order (rnd (pos + (k - 1))) := by
      simp only [maxRetries] at hk3
      rcases workerBody_cases rnd pos order with ⟨s1, e⟩ | ⟨f1, s2, e⟩ | ⟨f1, f2, s3, e⟩ |
        ⟨f1, f2, f3, e⟩ <;>
      · rw [e]
        rcases (show k = 1 ∨ k = 2 ∨ k = 3 by omega) with rfl | rfl | rfl
        · first
            | rfl
            | simp_all
        · first
            | rfl
            | (have h0 := hf 0 (by omega); simp_all)
        · first
            | rfl
            | (have h0 := hf 0 (by omega); have h1 := hf 1 (by omega); simp_all)
    rw [sent_workerBody, hres]
    exact ⟨rfl, hs, processOrder_error_of_success _ _ hs⟩
  · intro orders
    induction orders with
    | nil => intro pos0 r hr; simp [worker, sent] at hr
    | cons o rest ih =>
      intro pos0 r hr
      rw [worker, sent_append, sent_workerBody, List.mem_append] at hr
      rcases hr with hr | hr
      · rw [List.mem_singleton] at hr
        subst hr
        rw [workerBody_result]
        generalize rnd (pos0 + (invocationCount rnd pos0 o - 1)) = d
        cases hsucc : (processOrder o d).Success
        · rw [processOrder_error_of_failure o d hsucc]; simp
        · rw [processOrder_error_of_success o d hsucc]; simp
      · exact ih _ r hr

theorem worker_success_has_no_error_witness :
    sent (workerBody (fun i => if i = 0 then failDraw else okDraw) 0 sampleOrder).trace =
      [processOrder sampleOrder okDraw] ∧
    (workerBody (fun i => if i = 0 then failDraw else okDraw) 0 sampleOrder).result.Success
      = true ∧
    (workerBody (fun i => if i = 0 then failDraw else okDraw) 0 sampleOrder).result.Error
      = none :=
  (worker_success_has_no_error (fun i => if i = 0 then failDraw else okDraw) 0 sampleOrder).1 2
    (by decide) (by decide)
    (fun i hi => by
      have : i = 0 := by omega
      subst this
      exact processOrder_failDraw sampleOrder)
    (processOrder_okDraw sampleOrder)

theorem sent_worker (rnd : Nat → ProcDraw) (orders : List Order) :
    ∀ pos, sent (worker rnd orders pos) = workerResults rnd orders pos := by
  induction orders with
  | nil => intro pos; simp [worker, workerResults, sent]
  | cons o rest ih =>
    intro pos
    rw [worker, sent_append, sent_workerBody, workerResults, ih]
    rfl

theorem workerBody_result_ids (rnd : Nat → ProcDraw) (pos : Nat) (order : Order) :
    (workerBody rnd pos order).result.OrderID = order.ID ∧
    (workerBody rnd pos order).result.CustomerName = order.CustomerName := by
  rw [workerBody_result]
  exact processOrder_ids _ _

theorem workerResults_ids (rnd : Nat → ProcDraw) (orders : List Order) :
    ∀ pos, (workerResults rnd orders pos).map (fun r => (r.OrderID, r.CustomerName)) =
      orders.map (fun o => (o.ID, o.CustomerName)) := by
  induction orders with
  | nil => intro pos; rfl
  | cons o rest ih =>
    intro pos
    simp only [workerResults, List.map_cons, ih]
    rw [(workerBody_result_ids rnd pos o).1, (workerBody_result_ids rnd pos o).2]

/-- Claim C4. For every finite sequence of orders a worker receives and every
outcome of the `processOrder` calls, the worker sends exactly one result per
received order, in the order of receipt, and the `i`-th result carries the
`OrderID` and `CustomerName` of the `i`-th order. -/
theorem worker_one_result_per_order (rnd : Nat → ProcDraw) (orders : List Order) (pos : Nat) :
    (sent (worker rnd orders pos)).length = orders.length ∧
    (sent (worker rnd orders pos)).map (fun r => (r.OrderID, r.CustomerName)) =
      orders.map (fun o => (o.ID, o.CustomerName)) ∧
    (∀ (i : Nat) (o : Order), orders[i]? = some o →
      ∃ r : ProcessResult, (sent (worker rnd orders pos))[i]? = some r ∧
        r.OrderID = o.ID ∧ r.CustomerName = o.CustomerName) := by
  have hmap := workerResults_ids rnd orders pos
  rw [← sent_worker] at hmap
  have hlen : (sent (worker rnd orders pos)).length = orders.length := by
    have := congrArg List.length hmap
    simpa using this
  refine ⟨hlen, hmap, ?_⟩
  intro i o hio
  have hi : i < orders.length := by
    rcases Nat.lt_or_ge i orders.length with h | h
    · exact h
    · rw [List.getElem?_eq_none h] at hio; cases hio
  have hi2 : i < (sent (worker rnd orders pos)).length := by omega
  refine ⟨(sent (worker rnd orders pos))[i], List.getElem?_eq_getElem hi2, ?_⟩
  have h1 : ((sent (worker rnd orders pos)).map (fun r => (r.OrderID, r.CustomerName)))[i]? =
      (orders.map (fun o => (o.ID, o.CustomerName)))[i]? := by rw [hmap]
  rw [List.getElem?_map, List.getElem?_map, hio, List.getElem?_eq_getElem hi2] at h1
  simp only [Option.map_some', Option.some.injEq, Prod.mk.injEq] at h1
  exact h1

/-! ## The aggregator -/

theorem foldl_aggStep_counts (results : List ProcessResult) :
    ∀ s : AggState,
      (results.foldl aggStep s).total = s.total + results.length ∧
      (results.foldl aggStep s).success = s.success + results.countP (fun r => r.Success) ∧
      (results.foldl aggStep s).failure = s.failure + results.countP (fun r => !r.Success) := by
  induction results with
  | nil => intro s; simp
  | cons r rest ih =>
    intro s
    rw [List.foldl_cons]
    obtain ⟨h1, h2, h3⟩ := ih (aggStep s r)
    rw [h1, h2, h3]
    cases hr : r.Success <;> simp [aggStep, hr] <;> omega

theorem countP_success_add_failure (results : List ProcessResult) :
    results.countP (fun r => r.Success) + results.countP (fun r => !r.Success) =
      results.length := by
  induction results with
  | nil => rfl
  | cons r rest ih =>
    cases hr : r.Success <;> simp [List.countP_cons, hr] <;> omega

/-- Claim C5. After the aggregator loop has consumed any finite sequence of
results, `success + failure = total`, `total` is the length of the sequence,
`success` is the number of results with `Success = true` and `failure` the
number with `Success = false`; and `success + failure = total` holds after
every prefix of the sequence. -/
theorem aggregator_counts (results : List ProcessResult) :
    (aggregate results).success + (aggregate results).failure = (aggregate results).total ∧
    (aggregate results).total = results.length ∧
    (aggregate results).success = results.countP (fun r => r.Success) ∧
    (aggregate results).failure = results.countP (fun r => !r.Success) ∧
    (∀ n, (aggregate (results.take n)).success + (aggregate (results.take n)).failure =
      (aggregate (results.take n)).total) := by
  have key : ∀ rs : List ProcessResult,
      (aggregate rs).total = rs.length ∧
      (aggregate rs).success = rs.countP (fun r => r.Success) ∧
      (aggregate rs).failure = rs.countP (fun r => !r.Success) := by
    intro rs
    have := foldl_aggStep_counts rs aggInit
    simpa [aggregate, aggInit] using this
  obtain ⟨h1, h2, h3⟩ := key results
  refine ⟨?_, h1, h2, h3, ?_⟩
  · rw [h1, h2, h3]; exact countP_success_add_failure results
  · intro n
    obtain ⟨p1, p2, p3⟩ := key (results.take n)
    rw [p1, p2, p3]; exact countP_success_add_failure _

/-! ## The generator -/

theorem generateLoop_eq (rnd : Nat → GenDraw) :
    ∀ (k i : Nat) (trace : List GEvent), numOrders + 1 - i = k →
      generateLoop rnd i trace = trace ++ genEvents rnd (List.range' i k) := by
  intro k
  induction k with
  | zero =>
    intro i trace h
    rw [generateLoop, if_neg (by omega)]
    simp [genEvents]
  | succ k ih =>
    intro i trace h
    rw [generateLoop, if_pos (by omega), ih (i + 1) _ (by omega)]
    simp [List.range'_succ, genEvents]

theorem sentOrders_append (a b : List GEvent) :
    sentOrders (a ++ b) = sentOrders a ++ sentOrders b := by
  induction a with
  | nil => rfl
  | cons e t ih => cases e <;> simp [sentOrders, ih]

theorem sentOrders_genEvents (rnd : Nat → GenDraw) (js : List Nat) :
    sentOrders (genEvents rnd js) = js.map (fun j => mkOrder j (rnd j)) := by
  induction js with
  | nil => rfl
  | cons j t ih => simp [genEvents, sentOrders, ih]

theorem close_not_mem_genEvents (rnd : Nat → GenDraw) (js : List Nat) :
    GEvent.close ∉ genEvents rnd js := by
  induction js with
  | nil => simp [genEvents]
  | cons j t ih => simp [genEvents, ih]

theorem generateOrders_eq (rnd : Nat → GenDraw) :
    generateOrders rnd = genEvents rnd (List.range' 1 numOrders) ++ [GEvent.close] := by
  unfold generateOrders
  rw [generateLoop_eq rnd numOrders 1 [] (by simp)]
  simp

/-- Claim C7. For every outcome of the random draws, `generateOrders` sends
exactly `numOrders = 20` orders on the intake; the `i`-th order sent has
`ID = i`, so the identifiers are `1, 2, ..., 20`; every order sent has a
non-empty `Items` and a `CustomerName` taken from `customerNames`; and the
intake is closed once, as the last action, after all the orders were sent. -/
theorem generateOrders_contract (rnd : Nat → GenDraw) :
    (sentOrders (generateOrders rnd)).length = numOrders ∧
    sentOrders (generateOrders rnd) =
      (List.range' 1 numOrders).map (fun i => mkOrder i (rnd i)) ∧
    (sentOrders (generateOrders rnd)).map (fun o => o.ID) =
      (List.range' 1 numOrders).map (fun (i : Nat) => (i : Int)) ∧
    (∀ o ∈ sentOrders (generateOrders rnd), o.Items ≠ [] ∧ o.CustomerName ∈ customerNames) ∧
    (∃ body, generateOrders rnd = body ++ [GEvent.close] ∧ GEvent.close ∉ body ∧
      (sentOrders body).length = numOrders) := by
  have hs : sentOrders (generateOrders rnd) =
      (List.range' 1 numOrders).map (fun i => mkOrder i (rnd i)) := by
    rw [generateOrders_eq, sentOrders_append, sentOrders_genEvents]
    simp [sentOrders]
  refine ⟨by rw [hs]; simp, hs, ?_, ?_, ?_⟩
  · rw [hs, List.map_map]; rfl
  · intro o ho
    rw [hs, List.mem_map] at ho
    obtain ⟨i, _, rfl⟩ := ho
    exact ⟨by simp [mkOrder], by simp only [mkOrder]; exact List.get_mem _ _ _⟩
  · refine ⟨genEvents rnd (List.range' 1 numOrders), generateOrders_eq rnd,
      close_not_mem_genEvents rnd _, ?_⟩
    rw [sentOrders_genEvents]; simp

/-! ## The pipeline -/

theorem sum_update_add {M : Type} [AddCommMonoid M] (f : WorkerPc → M)
    (ws : Fin numWorkers → WorkerPc) (w : Fin numWorkers) (y : WorkerPc) :
    (∑ j, f (Function.update ws w y j)) + f (ws w) = (∑ j, f (ws j)) + f y := by
  have h1 : ∀ j, f (Function.update ws w y j) = Function.update (fun k => f (ws k)) w (f y) j :=
    fun j => Function.apply_update (fun _ => f) ws w y j
  simp only [h1]
  rw [Finset.sum_update_of_mem (Finset.mem_univ w),
    ← Finset.add_sum_erase Finset.univ (fun k => f (ws k)) (Finset.mem_univ w),
    Finset.sdiff_singleton_eq_erase]
  abel

theorem inv_init : Inv Pipeline.init := by
  refine ⟨rfl, by simp [Pipeline.init], ?_, by simp [Pipeline.init], ?_, ?_, ?_, ?_, ?_, ?_, ?_, ?_,
    ?_, ?_, ?_, ?_⟩ <;> simp [Pipeline.init, WorkerPc.live, WorkerPc.ids, WorkerPc.doneIds,
      GenPc.sentCount, firstIds, aggregate]

@[simp] theorem live_notStarted : WorkerPc.live WorkerPc.notStarted = 0 := rfl
@[simp] theorem live_receiving : WorkerPc.live WorkerPc.receiving = 1 := rfl
@[simp] theorem live_holding (o : Order) : WorkerPc.live (WorkerPc.holding o) = 1 := rfl
@[simp] theorem live_sending (r : ProcessResult) : WorkerPc.live (WorkerPc.sending r) = 1 := rfl
@[simp] theorem live_exited : WorkerPc.live WorkerPc.exited = 0 := rfl
@[simp] theorem ids_notStarted : WorkerPc.ids WorkerPc.notStarted = 0 := rfl
@[simp] theorem ids_receiving : WorkerPc.ids WorkerPc.receiving = 0 := rfl
@[simp] theorem ids_holding (o : Order) : WorkerPc.ids (WorkerPc.holding o) = {o.ID} := rfl
@[simp] theorem ids_sending (r : ProcessResult) : WorkerPc.ids (WorkerPc.sending r) = {r.OrderID} := rfl
@[simp] theorem ids_exited : WorkerPc.ids WorkerPc.exited = 0 := rfl
@[simp] theorem doneIds_notStarted : WorkerPc.doneIds WorkerPc.notStarted = 0 := rfl
@[simp] theorem doneIds_receiving : WorkerPc.doneIds WorkerPc.receiving = 0 := rfl
@[simp] theorem doneIds_holding (o : Order) : WorkerPc.doneIds (WorkerPc.holding o) = 0 := rfl
@[simp] theorem doneIds_sending (r : ProcessResult) : WorkerPc.doneIds (WorkerPc.sending r) = {r.OrderID} := rfl
@[simp] theorem doneIds_exited : WorkerPc.doneIds WorkerPc.exited = 0 := rfl
@[simp] theorem cost_notStarted : WorkerPc.cost WorkerPc.notStarted = 1 := rfl
@[simp] theorem cost_receiving : WorkerPc.cost WorkerPc.receiving = 1 := rfl
@[simp] theorem cost_holding (o : Order) : WorkerPc.cost (WorkerPc.holding o) = 3 := rfl
@[simp] theorem cost_sending (r : ProcessResult) : WorkerPc.cost (WorkerPc.sending r) = 2 := rfl
@[simp] theorem cost_exited : WorkerPc.cost WorkerPc.exited = 0 := rfl

theorem step_spawnGen_iff (s s' : Pipeline) (hp : s.panicked = false) :
    step s Action.spawnGen = some s' ↔
      s.main = MainPc.start ∧
      s' = { s with main := MainPc.spawnWorkers 0, gen := GenPc.loop 1 } := by
  unfold step
  rw [hp]
  simp only [Bool.false_eq_true, if_false]
  constructor
  · intro h
    split at h
    · next hm => exact ⟨hm, by injection h with h; exact h.symm⟩
    · cases h
  · rintro ⟨hm, rfl⟩
    simp [hm]

theorem step_spawnWorker_iff (s s' : Pipeline) (hp : s.panicked = false) :
    step s Action.spawnWorker = some s' ↔
      ∃ (i : Nat) (h : i < numWorkers), s.main = MainPc.spawnWorkers i ∧
        s' = { s with
          main := MainPc.spawnWorkers (i + 1)
          wg := s.wg + 1
          workers := Function.update s.workers ⟨i, h⟩ WorkerPc.receiving } := by
  unfold step
  rw [hp]
  simp only [Bool.false_eq_true, if_false]
  constructor
  · intro h
    split at h
    · next i hm =>
      split at h
      · next hi => exact ⟨i, hi, hm, by injection h with h; exact h.symm⟩
      · cases h
    · cases h
  · rintro ⟨i, hi, hm, rfl⟩
    simp [hm, hi]

theorem step_spawnCoord_iff (s s' : Pipeline) (hp : s.panicked = false) :
    step s Action.spawnCoord = some s' ↔
      ∃ i, ¬ i < numWorkers ∧ s.main = MainPc.spawnWorkers i ∧
        s' = { s with main := MainPc.aggregating, coord := CoordPc.waiting } := by
  unfold step
  rw [hp]
  simp only [Bool.false_eq_true, if_false]
  constructor
  · intro h
    split at h
    · next i hm =>
      split at h
      · cases h
      · next hi => exact ⟨i, hi, hm, by injection h with h; exact h.symm⟩
    · cases h
  · rintro ⟨i, hi, hm, rfl⟩
    simp [hm, hi]

theorem step_genSend_iff (s s' : Pipeline) (w : Fin numWorkers) (d : GenDraw)
    (hp : s.panicked = false) :
    step s (Action.genSend w d) = some s' ↔
      ∃ i, s.gen = GenPc.loop i ∧ i ≤ numOrders ∧
        ((s.orderChClosed = true ∧ s' = s.panic) ∨
         (s.orderChClosed = false ∧ s.workers w = WorkerPc.receiving ∧
          s' = { s with
            gen := GenPc.loop (i + 1)
            workers := Function.update s.workers w (WorkerPc.holding (mkOrder i d)) })) := by
  unfold step
  rw [hp]
  simp only [Bool.false_eq_true, if_false]
  constructor
  · intro h
    split at h
    · next i hg =>
      split at h
      · next hi =>
        split at h
        · next hc => exact ⟨i, hg, hi, Or.inl ⟨hc, by injection h with h; exact h.symm⟩⟩
        · next hc =>
          split at h
          · next hw =>
            exact ⟨i, hg, hi, Or.inr ⟨by simpa using hc, hw, by injection h with h; exact h.symm⟩⟩
          · cases h
      · cases h
    · cases h
  · rintro ⟨i, hg, hi, ⟨hc, rfl⟩ | ⟨hc, hw, rfl⟩⟩
    · simp [hg, hi, hc]
    · simp [hg, hi, hc, hw]

theorem step_genClose_iff (s s' : Pipeline) (hp : s.panicked = false) :
    step s Action.genClose = some s' ↔
      ∃ i, s.gen = GenPc.loop i ∧ ¬ i ≤ numOrders ∧
        ((s.orderChClosed = true ∧ s' = s.panic) ∨
         (s.orderChClosed = false ∧
          s' = { s with gen := GenPc.finished, orderChClosed := true })) := by
  unfold step
  rw [hp]
  simp only [Bool.false_eq_true, if_false]
  constructor
  · intro h
    split at h
    · next i hg =>
      split at h
      · cases h
      · next hi =>
        split at h
        · next hc => exact ⟨i, hg, hi, Or.inl ⟨hc, by injection h with h; exact h.symm⟩⟩
        · next hc =>
          exact ⟨i, hg, hi, Or.inr ⟨by simpa using hc, by injection h with h; exact h.symm⟩⟩
    · cases h
  · rintro ⟨i, hg, hi, ⟨hc, rfl⟩ | ⟨hc, rfl⟩⟩
    · simp [hg, hi, hc]
    · simp [hg, hi, hc]

theorem step_process_iff (s s' : Pipeline) (w : Fin numWorkers) (rnd : Nat → ProcDraw)
    (hp : s.panicked = false) :
    step s (Action.process w rnd) = some s' ↔
      ∃ order, s.workers w = WorkerPc.holding order ∧
        s' = { s with
          workers := Function.update s.workers w
            (WorkerPc.sending (workerBody rnd 0 order).result)
          processed := s.processed ++ [(w, order.ID)] } := by
  unfold step
  rw [hp]
  simp only [Bool.false_eq_true, if_false]
  constructor
  · intro h
    split at h
    · next order hw => exact ⟨order, hw, by injection h with h; exact h.symm⟩
    · cases h
  · rintro ⟨order, hw, rfl⟩
    simp [hw]

theorem step_deliver_iff (s s' : Pipeline) (w : Fin numWorkers) (hp : s.panicked = false) :
    step s (Action.deliver w) = some s' ↔
      ∃ result, s.workers w = WorkerPc.sending result ∧
        ((s.resultChClosed = true ∧ s' = s.panic) ∨
         (s.resultChClosed = false ∧ s.main = MainPc.aggregating ∧
          s' = { s with
            workers := Function.update s.workers w WorkerPc.receiving
            agg := aggStep s.agg result
            received := s.received ++ [result] })) := by
  unfold step
  rw [hp]
  simp only [Bool.false_eq_true, if_false]
  constructor
  · intro h
    split at h
    · next result hw =>
      split at h
      · next hc => exact ⟨result, hw, Or.inl ⟨hc, by injection h with h; exact h.symm⟩⟩
      · next hc =>
        split at h
        · next hm =>
          exact ⟨result, hw, Or.inr ⟨by simpa using hc, hm, by injection h with h; exact h.symm⟩⟩
        · cases h
    · cases h
  · rintro ⟨result, hw, ⟨hc, rfl⟩ | ⟨hc, hm, rfl⟩⟩
    · simp [hw, hc]
    · simp [hw, hc, hm]

theorem step_workerExit_iff (s s' : Pipeline) (w : Fin numWorkers) (hp : s.panicked = false) :
    step s (Action.workerExit w) = some s' ↔
      s.workers w = WorkerPc.receiving ∧ s.orderChClosed = true ∧
        ((s.wg = 0 ∧ s' = s.panic) ∨
         (s.wg ≠ 0 ∧
          s' = { s with workers := Function.update s.workers w WorkerPc.exited,
                        wg := s.wg - 1 })) := by
  unfold step
  rw [hp]
  simp only [Bool.false_eq_true, if_false]
  constructor
  · intro h
    split at h
    · next hw =>
      split at h
      · next hc =>
        split at h
        · next h0 => exact ⟨hw, hc, Or.inl ⟨h0, by injection h with h; exact h.symm⟩⟩
        · next h0 => exact ⟨hw, hc, Or.inr ⟨h0, by injection h with h; exact h.symm⟩⟩
      · cases h
    · cases h
  · rintro ⟨hw, hc, ⟨h0, rfl⟩ | ⟨h0, rfl⟩⟩
    · simp [hw, hc, h0]
    · simp [hw, hc, h0]

theorem step_coordClose_iff (s s' : Pipeline) (hp : s.panicked = false) :
    step s Action.coordClose = some s' ↔
      s.coord = CoordPc.waiting ∧ s.wg = 0 ∧
        ((s.resultChClosed = true ∧ s' = s.panic) ∨
         (s.resultChClosed = false ∧
          s' = { s with coord := CoordPc.finished, resultChClosed := true,
                        resultCloses := s.resultCloses + 1 })) := by
  unfold step
  rw [hp]
  simp only [Bool.false_eq_true, if_false]
  constructor
  · intro h
    split at h
    · next hw =>
      split at h
      · next h0 =>
        split at h
        · next hc => exact ⟨hw, h0, Or.inl ⟨hc, by injection h with h; exact h.symm⟩⟩
        · next hc =>
          exact ⟨hw, h0, Or.inr ⟨by simpa using hc, by injection h with h; exact h.symm⟩⟩
      · cases h
    · cases h
  · rintro ⟨hw, h0, ⟨hc, rfl⟩ | ⟨hc, rfl⟩⟩
    · simp [hw, hc, h0]
    · simp [hw, hc, h0]

theorem step_mainExit_iff (s s' : Pipeline) (hp : s.panicked = false) :
    step s Action.mainExit = some s' ↔
      s.main = MainPc.aggregating ∧ s.resultChClosed = true ∧
        s' = { s with main := MainPc.finished } := by
  unfold step
  rw [hp]
  simp only [Bool.false_eq_true, if_false]
  constructor
  · intro h
    split at h
    · next hm =>
      split at h
      · next hc => exact ⟨hm, hc, by injection h with h; exact h.symm⟩
      · cases h
    · cases h
  · rintro ⟨hm, hc, rfl⟩
    simp [hm, hc]

theorem inv_spawnGen (s : Pipeline) (hinv : Inv s) (hm : s.main = MainPc.start) :
    Inv { s with main := MainPc.spawnWorkers 0, gen := GenPc.loop 1 } ∧
    Pipeline.cost { s with main := MainPc.spawnWorkers 0, gen := GenPc.loop 1 } < s.cost := by
  have hg : s.gen = GenPc.notStarted := hinv.genStarted.mpr hm
  have hc : s.orderChClosed = false := by
    cases h : s.orderChClosed
    · rfl
    · have := hinv.genClosed.mp h; rw [hg] at this; cases this
  refine ⟨{
    noPanic := hinv.noPanic
    genStarted := by simp
    genRange := by intro i hi; cases hi; simp [numOrders]
    genClosed := by simp [hc]
    spawnRange := by intro i hi; cases hi; simp
    workersStarted := by
      intro w
      simp [(hinv.workersStarted w).mpr (Or.inl hm)]
    wgCount := hinv.wgCount
    coordStarted := by simp [hinv.coordStarted.mpr (Or.inl hm)]
    closedIff := hinv.closedIff
    closedExited := hinv.closedExited
    exitedClosed := hinv.exitedClosed
    mainFinished := by simp
    closes := hinv.closes
    aggOk := hinv.aggOk
    conservation := by
      have := hinv.conservation
      rw [hg] at this
      simpa [GenPc.sentCount] using this
    processedOk := hinv.processedOk }, ?_⟩
  simp only [Pipeline.cost, hm, hg, MainPc.cost, GenPc.cost, numOrders, numWorkers]
  omega

theorem inv_spawnWorker (s : Pipeline) (hinv : Inv s) (i : Nat) (h : i < numWorkers)
    (hm : s.main = MainPc.spawnWorkers i) :
    Inv { s with
      main := MainPc.spawnWorkers (i + 1)
      wg := s.wg + 1
      workers := Function.update s.workers ⟨i, h⟩ WorkerPc.receiving } ∧
    Pipeline.cost { s with
      main := MainPc.spawnWorkers (i + 1)
      wg := s.wg + 1
      workers := Function.update s.workers ⟨i, h⟩ WorkerPc.receiving } < s.cost := by
  have hold : s.workers ⟨i, h⟩ = WorkerPc.notStarted :=
    (hinv.workersStarted ⟨i, h⟩).mpr (Or.inr ⟨i, hm, le_refl _⟩)
  have hcoord : s.coord = CoordPc.notStarted := hinv.coordStarted.mpr (Or.inr ⟨i, hm⟩)
  have hlive := sum_update_add WorkerPc.live s.workers ⟨i, h⟩ WorkerPc.receiving
  have hids := sum_update_add WorkerPc.ids s.workers ⟨i, h⟩ WorkerPc.receiving
  have hdone := sum_update_add WorkerPc.doneIds s.workers ⟨i, h⟩ WorkerPc.receiving
  have hcost := sum_update_add WorkerPc.cost s.workers ⟨i, h⟩ WorkerPc.receiving
  rw [hold] at hlive hids hdone hcost
  simp only [live_notStarted, live_receiving, ids_notStarted, ids_receiving, doneIds_notStarted,
    doneIds_receiving, cost_notStarted, cost_receiving, add_zero] at hlive hids hdone hcost
  refine ⟨{
    noPanic := hinv.noPanic
    genStarted := by
      simp only [reduceCtorEq, iff_false]
      intro hg
      have := hinv.genStarted.mp hg
      rw [hm] at this; cases this
    genRange := hinv.genRange
    genClosed := hinv.genClosed
    spawnRange := by intro j hj; cases hj; exact h
    workersStarted := by
      intro w
      by_cases hw : w = ⟨i, h⟩
      · subst hw
        simp
      · have hne : w.val ≠ i := fun e => hw (Fin.ext e)
        simp only [Function.update_noteq hw, reduceCtorEq, false_or, MainPc.spawnWorkers.injEq,
          exists_eq_left']
        rw [hinv.workersStarted w, hm]
        simp only [reduceCtorEq, false_or, MainPc.spawnWorkers.injEq, exists_eq_left']
        omega
    wgCount := by
      simp only
      rw [hlive, hinv.wgCount]
    coordStarted := by simp [hcoord]
    closedIff := hinv.closedIff
    closedExited := by
      intro hc
      simp only at hc
      rw [hcoord] at hc; cases hc
    exitedClosed := by
      intro w
      by_cases hw : w = ⟨i, h⟩
      · subst hw; simp
      · simp only [Function.update_noteq hw]
        exact hinv.exitedClosed w
    mainFinished := by simp
    closes := hinv.closes
    aggOk := hinv.aggOk
    conservation := by
      simp only
      rw [hids]
      exact hinv.conservation
    processedOk := by
      simp only
      rw [hdone]
      exact hinv.processedOk }, ?_⟩
  simp only [Pipeline.cost, hm, MainPc.cost]
  omega

theorem firstIds_succ (n : Nat) : firstIds (n + 1) = firstIds n ++ [((n + 1 : Nat) : Int)] := by
  simp [firstIds, List.range'_concat, Nat.add_comm]

theorem inv_spawnCoord (s : Pipeline) (hinv : Inv s) (i : Nat) (h : ¬ i < numWorkers)
    (hm : s.main = MainPc.spawnWorkers i) :
    Inv { s with main := MainPc.aggregating, coord := CoordPc.waiting } ∧
    Pipeline.cost { s with main := MainPc.aggregating, coord := CoordPc.waiting } < s.cost := by
  have hcoord : s.coord = CoordPc.notStarted := hinv.coordStarted.mpr (Or.inr ⟨i, hm⟩)
  have hclosed : s.resultChClosed = false := by
    cases hc : s.resultChClosed
    · rfl
    · have := hinv.closedIff.mp hc
      rw [hcoord] at this; cases this
  refine ⟨{
    noPanic := hinv.noPanic
    genStarted := by
      simp only [reduceCtorEq, iff_false]
      intro hg
      have := hinv.genStarted.mp hg
      rw [hm] at this; cases this
    genRange := hinv.genRange
    genClosed := hinv.genClosed
    spawnRange := by intro j hj; cases hj
    workersStarted := by
      intro w
      simp only [reduceCtorEq, false_and, exists_false, or_self, iff_false]
      intro hw
      rcases (hinv.workersStarted w).mp hw with h1 | ⟨j, h1, h2⟩
      · rw [hm] at h1; cases h1
      · rw [hm] at h1
        cases h1
        have := w.isLt
        omega
    wgCount := hinv.wgCount
    coordStarted := by simp
    closedIff := by simp [hclosed]
    closedExited := by intro hc; cases hc
    exitedClosed := hinv.exitedClosed
    mainFinished := by simp
    closes := hinv.closes
    aggOk := hinv.aggOk
    conservation := hinv.conservation
    processedOk := hinv.processedOk }, ?_⟩
  simp only [Pipeline.cost, hm, hcoord, MainPc.cost, CoordPc.cost]
  omega

theorem inv_genSend (s : Pipeline) (hinv : Inv s) (w : Fin numWorkers) (d : GenDraw) (i : Nat)
    (hg : s.gen = GenPc.loop i) (hi : i ≤ numOrders) (hw : s.workers w = WorkerPc.receiving) :
    Inv { s with
      gen := GenPc.loop (i + 1)
      workers := Function.update s.workers w (WorkerPc.holding (mkOrder i d)) } ∧
    Pipeline.cost { s with
      gen := GenPc.loop (i + 1)
      workers := Function.update s.workers w (WorkerPc.holding (mkOrder i d)) } < s.cost := by
  have hi1 : 1 ≤ i := (hinv.genRange i hg).1
  have hclosed : s.orderChClosed = false := by
    cases hc : s.orderChClosed
    · rfl
    · have := hinv.genClosed.mp hc
      rw [hg] at this; cases this
  have hlive := sum_update_add WorkerPc.live s.workers w (WorkerPc.holding (mkOrder i d))
  have hids := sum_update_add WorkerPc.ids s.workers w (WorkerPc.holding (mkOrder i d))
  have hdone := sum_update_add WorkerPc.doneIds s.workers w (WorkerPc.holding (mkOrder i d))
  have hcost := sum_update_add WorkerPc.cost s.workers w (WorkerPc.holding (mkOrder i d))
  rw [hw] at hlive hids hdone hcost
  simp only [live_holding, live_receiving, ids_holding, ids_receiving, doneIds_holding,
    doneIds_receiving, cost_holding, cost_receiving, add_zero] at hlive hids hdone hcost
  refine ⟨{
    noPanic := hinv.noPanic
    genStarted := by
      simp only [reduceCtorEq, false_iff]
      intro hmain
      have := hinv.genStarted.mpr hmain
      rw [hg] at this; cases this
    genRange := by
      intro j hj
      cases hj
      omega
    genClosed := by simp [hclosed]
    spawnRange := hinv.spawnRange
    workersStarted := by
      intro w'
      by_cases hww : w' = w
      · subst hww
        simp only [Function.update_same, reduceCtorEq, false_iff]
        intro hr
        have := (hinv.workersStarted w').mpr hr
        rw [hw] at this; cases this
      · simp only [Function.update_noteq hww]
        exact hinv.workersStarted w'
    wgCount := by
      simp only
      rw [hinv.wgCount]
      omega
    coordStarted := hinv.coordStarted
    closedIff := hinv.closedIff
    closedExited := by
      intro hc
      have := hinv.closedExited hc w
      rw [hw] at this; cases this
    exitedClosed := by
      intro w'
      by_cases hww : w' = w
      · subst hww; simp
      · simp only [Function.update_noteq hww]
        exact hinv.exitedClosed w'
    mainFinished := hinv.mainFinished
    closes := hinv.closes
    aggOk := hinv.aggOk
    conservation := by
      have hc := hinv.conservation
      rw [hg] at hc
      simp only [GenPc.sentCount] at hc ⊢
      rw [hids, ← add_assoc, hc]
      have : i + 1 - 1 = (i - 1) + 1 := by omega
      rw [this, firstIds_succ, ← Multiset.coe_add]
      have hcast : ((i - 1 + 1 : Nat) : Int) = (mkOrder i d).ID := by
        have : i - 1 + 1 = i := by omega
        rw [this]; rfl
      rw [hcast]
      rfl
    processedOk := by
      simp only
      rw [hdone]
      exact hinv.processedOk }, ?_⟩
  simp only [Pipeline.cost, hg, GenPc.cost]
  omega

theorem inv_genClose (s : Pipeline) (hinv : Inv s) (i : Nat)
    (hg : s.gen = GenPc.loop i) (hi : ¬ i ≤ numOrders) :
    Inv { s with gen := GenPc.finished, orderChClosed := true } ∧
    Pipeline.cost { s with gen := GenPc.finished, orderChClosed := true } < s.cost := by
  have hi1 := (hinv.genRange i hg).2
  have hieq : i = numOrders + 1 := by omega
  refine ⟨{
    noPanic := hinv.noPanic
    genStarted := by
      simp only [reduceCtorEq, false_iff]
      intro hmain
      have := hinv.genStarted.mpr hmain
      rw [hg] at this; cases this
    genRange := by intro j hj; cases hj
    genClosed := by simp
    spawnRange := hinv.spawnRange
    workersStarted := hinv.workersStarted
    wgCount := hinv.wgCount
    coordStarted := hinv.coordStarted
    closedIff := hinv.closedIff
    closedExited := hinv.closedExited
    exitedClosed := by intro w _; rfl
    mainFinished := hinv.mainFinished
    closes := hinv.closes
    aggOk := hinv.aggOk
    conservation := by
      have hc := hinv.conservation
      rw [hg, hieq] at hc
      simpa [GenPc.sentCount] using hc
    processedOk := hinv.processedOk }, ?_⟩
  simp only [Pipeline.cost, hg, GenPc.cost]
  omega

theorem aggregate_concat (results : List ProcessResult) (r : ProcessResult) :
    aggregate (results ++ [r]) = aggStep (aggregate results) r := by
  simp [aggregate, List.foldl_append]

theorem inv_process (s : Pipeline) (hinv : Inv s) (w : Fin numWorkers) (rnd : Nat → ProcDraw)
    (order : Order) (hw : s.workers w = WorkerPc.holding order) :
    Inv { s with
      workers := Function.update s.workers w (WorkerPc.sending (workerBody rnd 0 order).result)
      processed := s.processed ++ [(w, order.ID)] } ∧
    Pipeline.cost { s with
      workers := Function.update s.workers w (WorkerPc.sending (workerBody rnd 0 order).result)
      processed := s.processed ++ [(w, order.ID)] } < s.cost := by
  have hid : (workerBody rnd 0 order).result.OrderID = order.ID :=
    (workerBody_result_ids rnd 0 order).1
  have hlive := sum_update_add WorkerPc.live s.workers w
    (WorkerPc.sending (workerBody rnd 0 order).result)
  have hids := sum_update_add WorkerPc.ids s.workers w
    (WorkerPc.sending (workerBody rnd 0 order).result)
  have hdone := sum_update_add WorkerPc.doneIds s.workers w
    (WorkerPc.sending (workerBody rnd 0 order).result)
  have hcost := sum_update_add WorkerPc.cost s.workers w
    (WorkerPc.sending (workerBody rnd 0 order).result)
  rw [hw] at hlive hids hdone hcost
  simp only [live_holding, live_sending, ids_holding, ids_sending, doneIds_holding,
    doneIds_sending, cost_holding, cost_sending, add_zero, hid] at hlive hids hdone hcost
  have hids' := add_right_cancel hids
  refine ⟨{
    noPanic := hinv.noPanic
    genStarted := hinv.genStarted
    genRange := hinv.genRange
    genClosed := hinv.genClosed
    spawnRange := hinv.spawnRange
    workersStarted := by
      intro w'
      by_cases hww : w' = w
      · subst hww
        simp only [Function.update_same, reduceCtorEq, false_iff]
        intro hr
        have := (hinv.workersStarted w').mpr hr
        rw [hw] at this; cases this
      · simp only [Function.update_noteq hww]
        exact hinv.workersStarted w'
    wgCount := by
      simp only
      rw [hinv.wgCount]
      omega
    coordStarted := hinv.coordStarted
    closedIff := hinv.closedIff
    closedExited := by
      intro hc
      have := hinv.closedExited hc w
      rw [hw] at this; cases this
    exitedClosed := by
      intro w'
      by_cases hww : w' = w
      · subst hww; simp
      · simp only [Function.update_noteq hww]
        exact hinv.exitedClosed w'
    mainFinished := hinv.mainFinished
    closes := hinv.closes
    aggOk := hinv.aggOk
    conservation := by
      simp only
      rw [hids']
      exact hinv.conservation
    processedOk := by
      simp only [List.map_append, List.map_cons, List.map_nil]
      rw [hdone, ← add_assoc, ← hinv.processedOk, ← Multiset.coe_add]
      rfl }, ?_⟩
  simp only [Pipeline.cost]
  omega

theorem inv_deliver (s : Pipeline) (hinv : Inv s) (w : Fin numWorkers) (result : ProcessResult)
    (hw : s.workers w = WorkerPc.sending result) :
    Inv { s with
      workers := Function.update s.workers w WorkerPc.receiving
      agg := aggStep s.agg result
      received := s.received ++ [result] } ∧
    Pipeline.cost { s with
      workers := Function.update s.workers w WorkerPc.receiving
      agg := aggStep s.agg result
      received := s.received ++ [result] } < s.cost := by
  have hlive := sum_update_add WorkerPc.live s.workers w WorkerPc.receiving
  have hids := sum_update_add WorkerPc.ids s.workers w WorkerPc.receiving
  have hdone := sum_update_add WorkerPc.doneIds s.workers w WorkerPc.receiving
  have hcost := sum_update_add WorkerPc.cost s.workers w WorkerPc.receiving
  rw [hw] at hlive hids hdone hcost
  simp only [live_receiving, live_sending, ids_receiving, ids_sending, doneIds_receiving,
    doneIds_sending, cost_receiving, cost_sending, add_zero] at hlive hids hdone hcost
  have hrec : ((List.map (fun r => r.OrderID) (s.received ++ [result]) : List Int) :
      Multiset Int) =
      ((List.map (fun r => r.OrderID) s.received : List Int) : Multiset Int) +
        {result.OrderID} := by
    rw [List.map_append, ← Multiset.coe_add]
    rfl
  refine ⟨{
    noPanic := hinv.noPanic
    genStarted := hinv.genStarted
    genRange := hinv.genRange
    genClosed := hinv.genClosed
    spawnRange := hinv.spawnRange
    workersStarted := by
      intro w'
      by_cases hww : w' = w
      · subst hww
        simp only [Function.update_same, reduceCtorEq, false_iff]
        intro hr
        have := (hinv.workersStarted w').mpr hr
        rw [hw] at this; cases this
      · simp only [Function.update_noteq hww]
        exact hinv.workersStarted w'
    wgCount := by
      simp only
      rw [hinv.wgCount]
      omega
    coordStarted := hinv.coordStarted
    closedIff := hinv.closedIff
    closedExited := by
      intro hc
      have := hinv.closedExited hc w
      rw [hw] at this; cases this
    exitedClosed := by
      intro w'
      by_cases hww : w' = w
      · subst hww; simp
      · simp only [Function.update_noteq hww]
        exact hinv.exitedClosed w'
    mainFinished := hinv.mainFinished
    closes := hinv.closes
    aggOk := by
      simp only
      rw [aggregate_concat, hinv.aggOk]
    conservation := by
      simp only
      rw [hrec, add_assoc, add_comm ({result.OrderID} : Multiset Int), hids]
      exact hinv.conservation
    processedOk := by
      simp only
      rw [hrec, add_assoc, add_comm ({result.OrderID} : Multiset Int), hdone]
      exact hinv.processedOk }, ?_⟩
  simp only [Pipeline.cost]
  omega

theorem inv_workerExit (s : Pipeline) (hinv : Inv s) (w : Fin numWorkers)
    (hw : s.workers w = WorkerPc.receiving) (hc : s.orderChClosed = true) :
    s.wg ≠ 0 ∧
    Inv { s with workers := Function.update s.workers w WorkerPc.exited, wg := s.wg - 1 } ∧
    Pipeline.cost { s with workers := Function.update s.workers w WorkerPc.exited,
                           wg := s.wg - 1 } < s.cost := by
  have hlive := sum_update_add WorkerPc.live s.workers w WorkerPc.exited
  have hids := sum_update_add WorkerPc.ids s.workers w WorkerPc.exited
  have hdone := sum_update_add WorkerPc.doneIds s.workers w WorkerPc.exited
  have hcost := sum_update_add WorkerPc.cost s.workers w WorkerPc.exited
  rw [hw] at hlive hids hdone hcost
  simp only [live_receiving, live_exited, ids_receiving, ids_exited, doneIds_receiving,
    doneIds_exited, cost_receiving, cost_exited, add_zero] at hlive hids hdone hcost
  have hwg := hinv.wgCount
  refine ⟨by omega, {
    noPanic := hinv.noPanic
    genStarted := hinv.genStarted
    genRange := hinv.genRange
    genClosed := hinv.genClosed
    spawnRange := hinv.spawnRange
    workersStarted := by
      intro w'
      by_cases hww : w' = w
      · subst hww
        simp only [Function.update_same, reduceCtorEq, false_iff]
        intro hr
        have := (hinv.workersStarted w').mpr hr
        rw [hw] at this; cases this
      · simp only [Function.update_noteq hww]
        exact hinv.workersStarted w'
    wgCount := by
      simp only
      omega
    coordStarted := hinv.coordStarted
    closedIff := hinv.closedIff
    closedExited := by
      intro hcf
      have := hinv.closedExited hcf w
      rw [hw] at this; cases this
    exitedClosed := by intro w' _; exact hc
    mainFinished := hinv.mainFinished
    closes := hinv.closes
    aggOk := hinv.aggOk
    conservation := by
      simp only
      rw [hids]
      exact hinv.conservation
    processedOk := by
      simp only
      rw [hdone]
      exact hinv.processedOk }, ?_⟩
  simp only [Pipeline.cost]
  omega

/-- When the wait-group counter is zero after the coordinator was started,
every worker has left its loop. -/
theorem all_exited_of_wg_zero (s : Pipeline) (hinv : Inv s) (hcoord : s.coord ≠ CoordPc.notStarted)
    (hwg : s.wg = 0) : ∀ w, s.workers w = WorkerPc.exited := by
  intro w
  have hsum : ∑ w, (s.workers w).live = 0 := by rw [← hinv.wgCount]; exact hwg
  have hz : (s.workers w).live = 0 :=
    (Finset.sum_eq_zero_iff.mp hsum) w (Finset.mem_univ w)
  have hns : s.workers w ≠ WorkerPc.notStarted := by
    intro hn
    have := (hinv.workersStarted w).mp hn
    apply hcoord
    apply hinv.coordStarted.mpr
    rcases this with h | ⟨i, h, _⟩
    · exact Or.inl h
    · exact Or.inr ⟨i, h⟩
  cases hcase : s.workers w with
  | notStarted => exact absurd hcase hns
  | receiving => rw [hcase] at hz; cases hz
  | holding o => rw [hcase] at hz; cases hz
  | sending r => rw [hcase] at hz; cases hz
  | exited => rfl

theorem inv_coordClose (s : Pipeline) (hinv : Inv s) (hco : s.coord = CoordPc.waiting)
    (hwg : s.wg = 0) :
    s.resultChClosed = false ∧
    Inv { s with coord := CoordPc.finished, resultChClosed := true,
                 resultCloses := s.resultCloses + 1 } ∧
    Pipeline.cost { s with coord := CoordPc.finished, resultChClosed := true,
                           resultCloses := s.resultCloses + 1 } < s.cost := by
  have hclosed : s.resultChClosed = false := by
    cases hc : s.resultChClosed
    · rfl
    · have := hinv.closedIff.mp hc
      rw [hco] at this; cases this
  have hall := all_exited_of_wg_zero s hinv (by rw [hco]; simp) hwg
  refine ⟨hclosed, {
    noPanic := hinv.noPanic
    genStarted := hinv.genStarted
    genRange := hinv.genRange
    genClosed := hinv.genClosed
    spawnRange := hinv.spawnRange
    workersStarted := hinv.workersStarted
    wgCount := hinv.wgCount
    coordStarted := by
      simp only [reduceCtorEq, false_iff]
      intro h
      have := hinv.coordStarted.mpr h
      rw [hco] at this; cases this
    closedIff := by simp
    closedExited := fun _ => hall
    exitedClosed := hinv.exitedClosed
    mainFinished := by intro _; rfl
    closes := by
      have := hinv.closes
      rw [hclosed] at this
      simp [this]
    aggOk := hinv.aggOk
    conservation := hinv.conservation
    processedOk := hinv.processedOk }, ?_⟩
  simp only [Pipeline.cost, hco, CoordPc.cost]
  omega

theorem inv_mainExit (s : Pipeline) (hinv : Inv s) (hm : s.main = MainPc.aggregating)
    (hc : s.resultChClosed = true) :
    Inv { s with main := MainPc.finished } ∧
    Pipeline.cost { s with main := MainPc.finished } < s.cost := by
  refine ⟨{
    noPanic := hinv.noPanic
    genStarted := by
      simp only [reduceCtorEq, iff_false]
      intro hg
      have := hinv.genStarted.mp hg
      rw [hm] at this; cases this
    genRange := hinv.genRange
    genClosed := hinv.genClosed
    spawnRange := by intro j hj; cases hj
    workersStarted := by
      intro w
      simp only [reduceCtorEq, false_and, exists_false, or_self, iff_false]
      intro hw
      rcases (hinv.workersStarted w).mp hw with h1 | ⟨j, h1, _⟩
      · rw [hm] at h1; cases h1
      · rw [hm] at h1; cases h1
    wgCount := hinv.wgCount
    coordStarted := by
      simp only [reduceCtorEq, exists_false, or_self, iff_false]
      intro hco
      rcases hinv.coordStarted.mp hco with h1 | ⟨j, h1⟩
      · rw [hm] at h1; cases h1
      · rw [hm] at h1; cases h1
    closedIff := hinv.closedIff
    closedExited := hinv.closedExited
    exitedClosed := hinv.exitedClosed
    mainFinished := fun _ => hc
    closes := hinv.closes
    aggOk := hinv.aggOk
    conservation := hinv.conservation
    processedOk := hinv.processedOk }, ?_⟩
  simp only [Pipeline.cost, hm, MainPc.cost]
  omega

/-- Every step from a state that satisfies the invariant leads to a state
that satisfies it, and decreases the bound on the remaining steps. -/
theorem inv_step (s s' : Pipeline) (a : Action) (hinv : Inv s) (h : step s a = some s') :
    Inv s' ∧ s'.cost < s.cost := by
  have hp := hinv.noPanic
  cases a with
  | spawnGen =>
    obtain ⟨hm, rfl⟩ := (step_spawnGen_iff s s' hp).mp h
    exact inv_spawnGen s hinv hm
  | spawnWorker =>
    obtain ⟨i, hi, hm, rfl⟩ := (step_spawnWorker_iff s s' hp).mp h
    exact inv_spawnWorker s hinv i hi hm
  | spawnCoord =>
    obtain ⟨i, hi, hm, rfl⟩ := (step_spawnCoord_iff s s' hp).mp h
    exact inv_spawnCoord s hinv i hi hm
  | genSend w d =>
    obtain ⟨i, hg, hi, ⟨hc, _⟩ | ⟨_, hw, rfl⟩⟩ := (step_genSend_iff s s' w d hp).mp h
    · have := hinv.genClosed.mp hc
      rw [hg] at this; cases this
    · exact inv_genSend s hinv w d i hg hi hw
  | genClose =>
    obtain ⟨i, hg, hi, ⟨hc, _⟩ | ⟨_, rfl⟩⟩ := (step_genClose_iff s s' hp).mp h
    · have := hinv.genClosed.mp hc
      rw [hg] at this; cases this
    · exact inv_genClose s hinv i hg hi
  | process w rnd =>
    obtain ⟨order, hw, rfl⟩ := (step_process_iff s s' w rnd hp).mp h
    exact inv_process s hinv w rnd order hw
  | deliver w =>
    obtain ⟨result, hw, ⟨hc, _⟩ | ⟨_, _, rfl⟩⟩ := (step_deliver_iff s s' w hp).mp h
    · have := hinv.closedExited (hinv.closedIff.mp hc) w
      rw [hw] at this; cases this
    · exact inv_deliver s hinv w result hw
  | workerExit w =>
    obtain ⟨hw, hc, ⟨h0, _⟩ | ⟨_, rfl⟩⟩ := (step_workerExit_iff s s' w hp).mp h
    · exact absurd h0 (inv_workerExit s hinv w hw hc).1
    · exact (inv_workerExit s hinv w hw hc).2
  | coordClose =>
    obtain ⟨hco, hwg, ⟨hc, _⟩ | ⟨_, rfl⟩⟩ := (step_coordClose_iff s s' hp).mp h
    · have := (inv_coordClose s hinv hco hwg).1
      rw [hc] at this; cases this
    · exact (inv_coordClose s hinv hco hwg).2
  | mainExit =>
    obtain ⟨hm, hc, rfl⟩ := (step_mainExit_iff s s' hp).mp h
    exact inv_mainExit s hinv hm hc

theorem inv_run (as : List Action) :
    ∀ s s' : Pipeline, Inv s → run s as = some s' → Inv s' ∧ s'.cost + as.length ≤ s.cost := by
  induction as with
  | nil =>
    intro s s' hinv h
    simp only [run, Option.some.injEq] at h
    subst h
    exact ⟨hinv, by simp⟩
  | cons a as ih =>
    intro s s' hinv h
    simp only [run] at h
    cases hs : step s a with
    | none => rw [hs] at h; cases h
    | some s1 =>
      rw [hs] at h
      obtain ⟨h1, h2⟩ := inv_step s s1 a hinv hs
      obtain ⟨h3, h4⟩ := ih s1 s' h1 h
      refine ⟨h3, ?_⟩
      simp only [List.length_cons]
      omega

theorem inv_of_reachable (s : Pipeline) (h : Reachable s) : Inv s := by
  obtain ⟨as, h⟩ := h
  exact (inv_run as Pipeline.init s inv_init h).1

/-- In a state that satisfies the invariant the program is not blocked as
long as the loop of the aggregator has not ended: some goroutine can take a
step. -/
theorem progress (s : Pipeline) (hinv : Inv s) (hm : s.main ≠ MainPc.finished) :
    ∃ a s', step s a = some s' := by
  have hp := hinv.noPanic
  cases hmain : s.main with
  | start => exact ⟨Action.spawnGen, _, (step_spawnGen_iff s _ hp).mpr ⟨hmain, rfl⟩⟩
  | spawnWorkers i =>
    by_cases hi : i < numWorkers
    · exact ⟨Action.spawnWorker, _, (step_spawnWorker_iff s _ hp).mpr ⟨i, hi, hmain, rfl⟩⟩
    · exact ⟨Action.spawnCoord, _, (step_spawnCoord_iff s _ hp).mpr ⟨i, hi, hmain, rfl⟩⟩
  | finished => exact absurd hmain hm
  | aggregating =>
    have hstarted : ∀ w, s.workers w ≠ WorkerPc.notStarted := by
      intro w hw
      rcases (hinv.workersStarted w).mp hw with h1 | ⟨j, h1, _⟩
      · rw [hmain] at h1; cases h1
      · rw [hmain] at h1; cases h1
    have hcoord : s.coord ≠ CoordPc.notStarted := by
      intro hco
      rcases hinv.coordStarted.mp hco with h1 | ⟨j, h1⟩
      · rw [hmain] at h1; cases h1
      · rw [hmain] at h1; cases h1
    by_cases hH : ∃ w o, s.workers w = WorkerPc.holding o
    · obtain ⟨w, o, hw⟩ := hH
      exact ⟨Action.process w (fun _ => okDraw), _,
        (step_process_iff s _ w _ hp).mpr ⟨o, hw, rfl⟩⟩
    by_cases hS : ∃ w r, s.workers w = WorkerPc.sending r
    · obtain ⟨w, r, hw⟩ := hS
      have hclosed : s.resultChClosed = false := by
        cases hc : s.resultChClosed
        · rfl
        · have := hinv.closedExited (hinv.closedIff.mp hc) w
          rw [hw] at this; cases this
      exact ⟨Action.deliver w, _,
        (step_deliver_iff s _ w hp).mpr ⟨r, hw, Or.inr ⟨hclosed, hmain, rfl⟩⟩⟩
    have hidle : ∀ w, s.workers w = WorkerPc.receiving ∨ s.workers w = WorkerPc.exited := by
      intro w
      cases hw : s.workers w with
      | notStarted => exact absurd hw (hstarted w)
      | receiving => exact Or.inl rfl
      | holding o => exact absurd ⟨w, o, hw⟩ hH
      | sending r => exact absurd ⟨w, r, hw⟩ hS
      | exited => exact Or.inr rfl
    by_cases hR : ∃ w, s.workers w = WorkerPc.receiving
    · obtain ⟨w, hw⟩ := hR
      cases hgen : s.gen with
      | notStarted =>
        have := hinv.genStarted.mp hgen
        rw [hmain] at this; cases this
      | loop i =>
        have hclosed : s.orderChClosed = false := by
          cases hc : s.orderChClosed
          · rfl
          · have := hinv.genClosed.mp hc
            rw [hgen] at this; cases this
        by_cases hi : i ≤ numOrders
        · exact ⟨Action.genSend w sampleGenDraw, _,
            (step_genSend_iff s _ w _ hp).mpr ⟨i, hgen, hi, Or.inr ⟨hclosed, hw, rfl⟩⟩⟩
        · exact ⟨Action.genClose, _,
            (step_genClose_iff s _ hp).mpr ⟨i, hgen, hi, Or.inr ⟨hclosed, rfl⟩⟩⟩
      | finished =>
        have hclosed := hinv.genClosed.mpr hgen
        exact ⟨Action.workerExit w, _,
          (step_workerExit_iff s _ w hp).mpr
            ⟨hw, hclosed, Or.inr ⟨(inv_workerExit s hinv w hw hclosed).1, rfl⟩⟩⟩
    · have hall : ∀ w, s.workers w = WorkerPc.exited := by
        intro w
        rcases hidle w with h | h
        · exact absurd ⟨w, h⟩ hR
        · exact h
      have hwg : s.wg = 0 := by
        rw [hinv.wgCount]
        apply Finset.sum_eq_zero
        intro w _
        rw [hall w]; rfl
      cases hco : s.coord with
      | notStarted => exact absurd hco hcoord
      | waiting =>
        exact ⟨Action.coordClose, _,
          (step_coordClose_iff s _ hp).mpr
            ⟨hco, hwg, Or.inr ⟨(inv_coordClose s hinv hco hwg).1, rfl⟩⟩⟩
      | finished =>
        exact ⟨Action.mainExit, _,
          (step_mainExit_iff s _ hp).mpr ⟨hmain, hinv.closedIff.mpr hco, rfl⟩⟩

/-- From a state that satisfies the invariant the program can always run
to the end of the loop of the aggregator. -/
theorem can_finish : ∀ (n : Nat) (s : Pipeline), Inv s → s.cost ≤ n →
    ∃ as s', run s as = some s' ∧ s'.main = MainPc.finished := by
  intro n
  induction n with
  | zero =>
    intro s hinv hc
    by_cases hm : s.main = MainPc.finished
    · exact ⟨[], s, rfl, hm⟩
    · obtain ⟨a, s1, h1⟩ := progress s hinv hm
      have := (inv_step s s1 a hinv h1).2
      omega
  | succ n ih =>
    intro s hinv hc
    by_cases hm : s.main = MainPc.finished
    · exact ⟨[], s, rfl, hm⟩
    · obtain ⟨a, s1, h1⟩ := progress s hinv hm
      obtain ⟨hinv1, hlt⟩ := inv_step s s1 a hinv h1
      obtain ⟨as, s', h2, h3⟩ := ih s1 hinv1 (by omega)
      exact ⟨a :: as, s', by simp [run, h1, h2], h3⟩

theorem sampleSchedule_runs :
    ((run Pipeline.init sampleSchedule).map (fun s => s.main)) = some MainPc.finished := by
  rfl

theorem firstIds_nodup (n : Nat) : (firstIds n).Nodup := by
  unfold firstIds
  exact (List.nodup_range' 1 n).map (fun a b h => Int.ofNat.inj h)

theorem firstIds_length (n : Nat) : (firstIds n).length = n := by
  simp [firstIds]

theorem doneIds_le_ids (x : WorkerPc) : x.doneIds ≤ x.ids := by
  cases x <;> simp

/-- What the invariant says once the loop of the aggregator has ended. -/
theorem inv_finished (s : Pipeline) (hinv : Inv s) (hm : s.main = MainPc.finished) :
    (∀ w, s.workers w = WorkerPc.exited) ∧ s.gen = GenPc.finished ∧
    s.coord = CoordPc.finished ∧ s.resultChClosed = true ∧ s.orderChClosed = true := by
  have hc := hinv.mainFinished hm
  have hco := hinv.closedIff.mp hc
  have hall := hinv.closedExited hco
  have hoc := hinv.exitedClosed ⟨0, by decide⟩ (hall _)
  exact ⟨hall, hinv.genClosed.mp hoc, hco, hc, hoc⟩

/-- Claim C8. In the full pipeline (generator, `numWorkers` workers,
coordinator, aggregator), for every interleaving: at every moment the
identifiers of the results the aggregator has received, together with those
of the orders the workers have in hand, are exactly the identifiers
`1, ..., n` of the `n` orders sent so far (no loss); no identifier is received
twice and no order has its retry loop run twice, so none is processed by two
workers; the counters of the aggregator are those of the results received;
when the loop of the aggregator has ended it has received exactly
`numOrders` results, one for each of the identifiers `1, ..., numOrders`;
and every execution can be continued until that loop has ended. -/
theorem pipeline_one_result_per_order (as : List Action) (s : Pipeline)
    (h : run Pipeline.init as = some s) :
    ((s.received.map (fun r => r.OrderID) : List Int) : Multiset Int) +
      ∑ w, (s.workers w).ids = (firstIds s.gen.sentCount : Multiset Int) ∧
    (s.received.map (fun r => r.OrderID)).Nodup ∧
    (s.processed.map Prod.snd).Nodup ∧
    (∀ (w1 w2 : Fin numWorkers) (id : Int),
      (w1, id) ∈ s.processed → (w2, id) ∈ s.processed → w1 = w2) ∧
    s.agg = aggregate s.received ∧
    (s.main = MainPc.finished →
      s.received.length = numOrders ∧ s.agg.total = numOrders ∧
      (s.received.map (fun r => r.OrderID)).Perm (firstIds numOrders) ∧
      (s.processed.map Prod.snd).Perm (firstIds numOrders)) ∧
    (∃ as' s', run s as' = some s' ∧ s'.main = MainPc.finished) := by
  have hinv : Inv s := inv_of_reachable s ⟨as, h⟩
  have hcons := hinv.conservation
  have hTnodup : (firstIds s.gen.sentCount : Multiset Int).Nodup :=
    Multiset.coe_nodup.mpr (firstIds_nodup _)
  have hRle : ((s.received.map (fun r => r.OrderID) : List Int) : Multiset Int) ≤
      (firstIds s.gen.sentCount : Multiset Int) := by
    rw [← hcons]; exact Multiset.le_add_right _ _
  have hDle : ∑ w, (s.workers w).doneIds ≤ ∑ w, (s.workers w).ids :=
    Finset.sum_le_sum (fun w _ => doneIds_le_ids (s.workers w))
  have hPle : ((s.processed.map Prod.snd : List Int) : Multiset Int) ≤
      (firstIds s.gen.sentCount : Multiset Int) := by
    rw [hinv.processedOk, ← hcons]
    exact add_le_add_left hDle _
  have hPnodup : (s.processed.map Prod.snd).Nodup :=
    Multiset.coe_nodup.mp (Multiset.nodup_of_le hPle hTnodup)
  refine ⟨hcons, Multiset.coe_nodup.mp (Multiset.nodup_of_le hRle hTnodup), hPnodup, ?_,
    hinv.aggOk, ?_, can_finish s.cost s hinv (le_refl _)⟩
  · intro w1 w2 id h1 h2
    have := List.inj_on_of_nodup_map hPnodup h1 h2 rfl
    exact congrArg Prod.fst this
  · intro hm
    obtain ⟨hall, hgen, _, _, _⟩ := inv_finished s hinv hm
    have hS : ∑ w, (s.workers w).ids = 0 :=
      Finset.sum_eq_zero (fun w _ => by rw [hall w]; rfl)
    have hD : ∑ w, (s.workers w).doneIds = 0 :=
      Finset.sum_eq_zero (fun w _ => by rw [hall w]; rfl)
    have hR : ((s.received.map (fun r => r.OrderID) : List Int) : Multiset Int) =
        (firstIds numOrders : Multiset Int) := by
      rw [hS, add_zero, hgen] at hcons
      exact hcons
    have hperm := Multiset.coe_eq_coe.mp hR
    have hlen : s.received.length = numOrders := by
      have := hperm.length_eq
      simpa [firstIds_length] using this
    refine ⟨hlen, ?_, hperm, ?_⟩
    · rw [hinv.aggOk]
      have := (foldl_aggStep_counts s.received aggInit).1
      simpa [aggregate, aggInit, hlen] using this
    · apply Multiset.coe_eq_coe.mp
      rw [hinv.processedOk, hD, add_zero]
      exact hR

theorem pipeline_one_result_per_order_witness :
    ∃ s, run Pipeline.init sampleSchedule = some s ∧ s.main = MainPc.finished ∧
      s.received.length = numOrders ∧ s.agg.total = numOrders ∧
      (s.received.map (fun r => r.OrderID)).Perm (firstIds numOrders) := by
  obtain ⟨s, hs, hm⟩ := Option.map_eq_some'.mp sampleSchedule_runs
  have h := (pipeline_one_result_per_order sampleSchedule s hs).2.2.2.2.2.1 hm
  exact ⟨s, hs, hm, h.1, h.2.1, h.2.2.1⟩

theorem init_cost : Pipeline.init.cost = 75 := by
  simp [Pipeline.cost, Pipeline.init, MainPc.cost, GenPc.cost, CoordPc.cost, numWorkers,
    numOrders]

theorem step_resultCloses (s s' : Pipeline) (a : Action) (hinv : Inv s)
    (h : step s a = some s') (hc : s'.resultCloses = s.resultCloses + 1) :
    a = Action.coordClose := by
  have hp := hinv.noPanic
  cases a with
  | spawnGen =>
    obtain ⟨_, rfl⟩ := (step_spawnGen_iff s s' hp).mp h
    simp at hc
  | spawnWorker =>
    obtain ⟨i, hi, _, rfl⟩ := (step_spawnWorker_iff s s' hp).mp h
    simp at hc
  | spawnCoord =>
    obtain ⟨i, _, _, rfl⟩ := (step_spawnCoord_iff s s' hp).mp h
    simp at hc
  | genSend w d =>
    obtain ⟨i, _, _, ⟨_, rfl⟩ | ⟨_, _, rfl⟩⟩ := (step_genSend_iff s s' w d hp).mp h <;>
      simp [Pipeline.panic] at hc
  | genClose =>
    obtain ⟨i, _, _, ⟨_, rfl⟩ | ⟨_, rfl⟩⟩ := (step_genClose_iff s s' hp).mp h <;>
      simp [Pipeline.panic] at hc
  | process w rnd =>
    obtain ⟨order, _, rfl⟩ := (step_process_iff s s' w rnd hp).mp h
    simp at hc
  | deliver w =>
    obtain ⟨result, _, ⟨_, rfl⟩ | ⟨_, _, rfl⟩⟩ := (step_deliver_iff s s' w hp).mp h <;>
      simp [Pipeline.panic] at hc
  | workerExit w =>
    obtain ⟨_, _, ⟨_, rfl⟩ | ⟨_, rfl⟩⟩ := (step_workerExit_iff s s' w hp).mp h <;>
      simp [Pipeline.panic] at hc
  | coordClose => rfl
  | mainExit =>
    obtain ⟨_, _, rfl⟩ := (step_mainExit_iff s s' hp).mp h
    simp at hc

/-- Claim C9. In every execution: no goroutine panics, so no worker sends on a
closed channel and no channel is closed twice; `close(resultCh)` is executed
at most once, and exactly once when the loop of the aggregator has ended; the
step that executes it is the step of the coordinator, taken when every worker
has left its receive loop; a worker that is sending finds the channel open;
the execution has at most 75 steps, is never blocked before the loop of the
aggregator has ended, and when that loop has ended the aggregator has
received all `numOrders` results. -/
theorem pipeline_shutdown (as : List Action) (s : Pipeline)
    (h : run Pipeline.init as = some s) :
    s.panicked = false ∧
    s.resultCloses ≤ 1 ∧
    (s.resultCloses = 1 ↔ s.resultChClosed = true) ∧
    (s.main = MainPc.finished → s.resultCloses = 1) ∧
    (s.resultChClosed = true → ∀ w, s.workers w = WorkerPc.exited) ∧
    (∀ (a : Action) (s' : Pipeline), step s a = some s' →
      s'.resultCloses = s.resultCloses + 1 →
      a = Action.coordClose ∧ s.coord = CoordPc.waiting ∧
        ∀ w, s.workers w = WorkerPc.exited) ∧
    (∀ (w : Fin numWorkers) (r : ProcessResult),
      s.workers w = WorkerPc.sending r → s.resultChClosed = false) ∧
    as.length ≤ 75 ∧
    (s.main ≠ MainPc.finished → ∃ a s', step s a = some s') ∧
    (s.main = MainPc.finished → s.received.length = numOrders) := by
  obtain ⟨hinv, hcost⟩ := inv_run as Pipeline.init s inv_init h
  have hcl := hinv.closes
  refine ⟨hinv.noPanic, ?_, ?_, ?_, ?_, ?_, ?_, ?_, progress s hinv, ?_⟩
  · rw [hcl]; split <;> omega
  · rw [hcl]; cases s.resultChClosed <;> simp
  · intro hm
    rw [hcl, hinv.mainFinished hm]; rfl
  · intro hc
    exact hinv.closedExited (hinv.closedIff.mp hc)
  · intro a s' hs hc
    have ha := step_resultCloses s s' a hinv hs hc
    subst ha
    obtain ⟨hco, hwg, _⟩ := (step_coordClose_iff s s' hinv.noPanic).mp hs
    exact ⟨rfl, hco, all_exited_of_wg_zero s hinv (by rw [hco]; simp) hwg⟩
  · intro w r hw
    cases hc : s.resultChClosed
    · rfl
    · have := hinv.closedExited (hinv.closedIff.mp hc) w
      rw [hw] at this; cases this
  · rw [init_cost] at hcost
    omega
  · intro hm
    obtain ⟨hall, hgen, _, _, _⟩ := inv_finished s hinv hm
    have hS : ∑ w, (s.workers w).ids = 0 :=
      Finset.sum_eq_zero (fun w _ => by rw [hall w]; rfl)
    have hcons := hinv.conservation
    rw [hS, add_zero, hgen] at hcons
    have := (Multiset.coe_eq_coe.mp hcons).length_eq
    simpa [firstIds_length, GenPc.sentCount] using this

theorem pipeline_shutdown_witness :
    ∃ s, run Pipeline.init sampleSchedule = some s ∧ s.main = MainPc.finished ∧
      s.panicked = false ∧ s.resultCloses = 1 ∧ ∀ w, s.workers w = WorkerPc.exited := by
  obtain ⟨s, hs, hm⟩ := Option.map_eq_some'.mp sampleSchedule_runs
  have h := pipeline_shutdown sampleSchedule s hs
  exact ⟨s, hs, hm, h.1, h.2.2.2.1 hm, h.2.2.2.2.1 ((h.2.2.1).mp (h.2.2.2.1 hm))⟩

/-! ## The summary -/

theorem roundHalfEven_bounds (q : ℚ) :
    q - 1 / 2 ≤ (roundHalfEven q : ℚ) ∧ (roundHalfEven q : ℚ) ≤ q + 1 / 2 := by
  have h1 := Int.floor_le q
  have h2 := Int.lt_floor_add_one q
  unfold roundHalfEven
  split_ifs with a b c
  · constructor <;> linarith
  · push_cast; constructor <;> linarith
  · constructor <;> linarith
  · push_cast
    have : q - ⌊q⌋ = 1 / 2 := le_antisymm (not_lt.mp b) (not_lt.mp a)
    constructor <;> linarith

/-- A rational within `1/2` of an integer rounds to that integer. -/
theorem roundHalfEven_eq (q : ℚ) (m : ℤ) (h : |q - m| < 1 / 2) : roundHalfEven q = m := by
  obtain ⟨b1, b2⟩ := roundHalfEven_bounds q
  rw [abs_lt] at h
  have h1 : ((roundHalfEven q - m : ℤ) : ℚ) < 1 := by push_cast; linarith
  have h2 : (-1 : ℚ) < ((roundHalfEven q - m : ℤ) : ℚ) := by push_cast; linarith
  have h3 : roundHalfEven q - m < 1 := by exact_mod_cast h1
  have h4 : -1 < roundHalfEven q - m := by exact_mod_cast h2
  omega

theorem log_eq_of_bracket (a : ℚ) (e : ℤ) (ha : 0 < a) (h1 : (2 : ℚ) ^ e ≤ a)
    (h2 : a < (2 : ℚ) ^ (e + 1)) : Int.log 2 a = e := by
  have l1 : e ≤ Int.log 2 a := by
    have := (Int.zpow_le_iff_le_log (b := 2) (by norm_num) ha (x := e)).mp (by exact_mod_cast h1)
    exact this
  have l2 : Int.log 2 a < e + 1 := by
    have := (Int.lt_zpow_iff_log_lt (b := 2) (by norm_num) ha (x := e + 1)).mp
      (by exact_mod_cast h2)
    exact this
  omega

/-- Rounding with a certificate: the exponent `e` of `x` and the integer `m`
nearest to `x / 2 ^ (e - 52)`. -/
theorem F64.round_eq (x : ℚ) (e m : ℤ) (hx : 0 < x) (h1 : (2 : ℚ) ^ e ≤ x)
    (h2 : x < (2 : ℚ) ^ (e + 1)) (hmin : -1022 ≤ e)
    (hm : |x / 2 ^ (e - 52) - m| < 1 / 2) (hfin : (m : ℚ) * 2 ^ (e - 52) < 2 ^ 1024) :
    F64.round x = F64.fin ((m : ℚ) * 2 ^ (e - 52)) := by
  have hlog := log_eq_of_bracket x e hx h1 h2
  have habs : |x| = x := abs_of_pos hx
  have hq : F64.quantum x = 2 ^ (e - 52) := by
    unfold F64.quantum
    rw [hlog, max_eq_left hmin]
  have hr : F64.roundMagnitude x = (m : ℚ) * 2 ^ (e - 52) := by
    unfold F64.roundMagnitude
    rw [hq, roundHalfEven_eq _ m hm]
  unfold F64.round
  rw [if_neg (ne_of_gt hx), habs, hr, if_neg (not_le.mpr hfin), if_neg (not_lt.mpr hx.le)]


theorem F64.ofInt_twenty : F64.ofInt 20 = F64.fin 20 := by
  have h := F64.round_eq 20 4 (20 * 2 ^ 48) (by norm_num) (by norm_num) (by norm_num)
    (by norm_num) (by norm_num) (by norm_num)
  unfold F64.ofInt
  norm_num at h ⊢
  exact h

theorem F64.ofInt_hundred : F64.ofInt 100 = F64.fin 100 := by
  have h := F64.round_eq 100 6 (100 * 2 ^ 46) (by norm_num) (by norm_num) (by norm_num)
    (by norm_num) (by norm_num) (by norm_num)
  unfold F64.ofInt
  norm_num at h ⊢
  exact h

theorem F64.ofInt_eleven : F64.ofInt 11 = F64.fin 11 := by
  have h := F64.round_eq 11 3 (11 * 2 ^ 49) (by norm_num) (by norm_num) (by norm_num)
    (by norm_num) (by norm_num) (by norm_num)
  unfold F64.ofInt
  norm_num at h ⊢
  exact h

/-- The quotient `11 / 20` is not a `float64`: it rounds up. -/
theorem F64.round_eleven_twentieths :
    F64.round (11 / 20) = F64.fin (4953959590107546 / 2 ^ 53) := by
  have h := F64.round_eq (11 / 20) (-1) 4953959590107546 (by norm_num) (by norm_num)
    (by norm_num) (by norm_num) (by norm_num [abs_lt]) (by norm_num)
  norm_num at h ⊢
  exact h

theorem F64.round_fiftyfive :
    F64.round (4953959590107546 / 2 ^ 53 * 100) = F64.fin (55 + 1 / 2 ^ 47) := by
  have h := F64.round_eq (4953959590107546 / 2 ^ 53 * 100) 5 7740561859543041 (by norm_num)
    (by norm_num) (by norm_num) (by norm_num) (by norm_num [abs_lt]) (by norm_num)
  norm_num at h ⊢
  exact h

/-- With 11 successes out of 20 the percentage is the `float64` value
`55.00000000000001`, not `55`. -/
theorem percentage_eleven_of_twenty :
    percentage 11 20 = F64.fin (55 + 1 / 2 ^ 47) := by
  unfold percentage
  have h11 : F64.ofInt ((11 : ℕ) : ℤ) = F64.fin 11 := F64.ofInt_eleven
  have h20 : F64.ofInt ((20 : ℕ) : ℤ) = F64.fin 20 := F64.ofInt_twenty
  rw [h11, h20, F64.ofInt_hundred]
  have hd : F64.div (F64.fin 11) (F64.fin 20) = F64.fin (4953959590107546 / 2 ^ 53) := by
    rw [← F64.round_eleven_twentieths]
    simp [F64.div]
  rw [hd]
  rw [← F64.round_fiftyfive]
  simp [F64.mul]

/-- The worker prints one line after every failed call of `processOrder`,
the last one included: the number of lines printed for an order is the
number of failed calls.  It is one less than the number of calls when the
order ends in a success, and equal to it (`maxRetries`) when all calls fail. -/
theorem printed_workerBody (rnd : Nat → ProcDraw) (pos : Nat) (order : Order) :
    (printed (workerBody rnd pos order).trace).length =
      (invocations (workerBody rnd pos order).trace).countP (fun r => !r.Success) ∧
    ((workerBody rnd pos order).result.Success = true →
      (printed (workerBody rnd pos order).trace).length + 1 = invocationCount rnd pos order) ∧
    ((workerBody rnd pos order).result.Success = false →
      (printed (workerBody rnd pos order).trace).length = maxRetries ∧
      invocationCount rnd pos order = maxRetries) := by
  unfold invocationCount
  rcases workerBody_cases rnd pos order with ⟨s1, e⟩ | ⟨f1, s2, e⟩ | ⟨f1, f2, s3, e⟩ |
    ⟨f1, f2, f3, e⟩ <;>
  · rw [e]
    simp [printed, invocations, List.countP_cons, maxRetries, *]

/-- Claim C11, evaluated on an order whose three calls of `processOrder` all
fail: the worker makes three calls, that is two retries, and prints three
retry lines, the third one after the last call, which no retry follows. -/
theorem worker_prints_retry_line_after_last_failure :
    invocationCount (fun _ => failDraw) 0 sampleOrder = 3 ∧
    (workerBody (fun _ => failDraw) 0 sampleOrder).result.Success = false ∧
    printed (workerBody (fun _ => failDraw) 0 sampleOrder).trace =
      ["Ponowna próba [1] dla zamówienia 7\n", "Ponowna próba [2] dla zamówienia 7\n",
       "Ponowna próba [3] dla zamówienia 7\n"] ∧
    (printed (workerBody (fun _ => failDraw) 0 sampleOrder).trace).length ≠
      invocationCount (fun _ => failDraw) 0 sampleOrder - 1 ∧
    ¬ (printed (workerBody (fun _ => failDraw) 0 sampleOrder).trace).length ≤ maxRetries - 1 := by
  have hf := processOrder_failDraw sampleOrder
  unfold invocationCount
  rcases workerBody_cases (fun _ => failDraw) 0 sampleOrder with ⟨s1, _⟩ | ⟨_, s2, _⟩ |
    ⟨_, _, s3, _⟩ | ⟨_, _, _, e⟩
  · rw [hf] at s1; cases s1
  · rw [hf] at s2; cases s2
  · rw [hf] at s3; cases s3
  · rw [e]
    refine ⟨by simp [invocations], hf, ?_, by simp [printed, invocations],
      by simp [printed, maxRetries]⟩
    simp only [printed, sampleOrder]
    decide

end Lab4

namespace Lab1

/-! ## The PESEL generator -/

/-- The loop of `ObliczCyfreKontrolna` reads the elements 0 to 9 only. -/
theorem sumaLoop_congr (p q : Pesel) (hpq : ∀ j : Fin 11, j.val < 10 → p j = q j) :
    ∀ (k i : Nat) (suma : Int), 10 - i = k → sumaLoop p i suma = sumaLoop q i suma := by
  intro k
  induction k with
  | zero =>
    intro i suma hk
    rw [sumaLoop, sumaLoop, dif_neg (by omega), dif_neg (by omega)]
  | succ k ih =>
    intro i suma hk
    have hi : i < 10 := by omega
    rw [sumaLoop, sumaLoop, dif_pos hi, dif_pos hi, hpq ⟨i, by omega⟩ hi]
    exact ih (i + 1) _ (by omega)

theorem ObliczCyfreKontrolna_congr (p q : Pesel) (hpq : ∀ j : Fin 11, j.val < 10 → p j = q j) :
    ObliczCyfreKontrolna p = ObliczCyfreKontrolna q := by
  unfold ObliczCyfreKontrolna
  rw [sumaLoop_congr p q hpq 10 0 0 rfl]

theorem ObliczCyfreKontrolna_update_last (p : Pesel) (v : Int) :
    ObliczCyfreKontrolna (Function.update p 10 v) = ObliczCyfreKontrolna p := by
  apply ObliczCyfreKontrolna_congr
  intro j hj
  have hne : j ≠ 10 := by
    intro h
    rw [h] at hj
    exact absurd hj (by decide)
  exact Function.update_noteq hne v p

/-- Claim C10. For every birth date, every gender string and every outcome of
the random draws, the identifier returned by `GenerujPESEL` passes its own
checksum verification. -/
theorem WeryfikujPESEL_GenerujPESEL (birthDate : Date) (gender : String) (d : PeselDraw) :
    WeryfikujPESEL (GenerujPESEL birthDate gender d) = true := by
  unfold WeryfikujPESEL GenerujPESEL
  simp only [decide_eq_true_eq]
  rw [ObliczCyfreKontrolna_update_last]
  simp

/-! ## The checksum -/

theorem wrap64_add_wrap64 (a b : Int) : wrap64 (a + wrap64 b) = wrap64 (a + b) := by
  unfold wrap64
  omega

theorem wrap64_wrap64_add (a b : Int) : wrap64 (wrap64 a + b) = wrap64 (a + b) := by
  unfold wrap64
  omega

theorem wrap64_of_range (a : Int) (h1 : -2 ^ 63 ≤ a) (h2 : a < 2 ^ 63) : wrap64 a = a := by
  unfold wrap64
  omega

/-- The loop of `ObliczCyfreKontrolna` computes the weighted sum modulo
`2 ^ 64`, whatever overflows happen on the way. -/
theorem sumaLoop_eq (p : Pesel) : sumaLoop p 0 0 = wrap64 (weightedSum p) := by
  have e0 : wagi ⟨0, by decide⟩ = 1 := rfl
  have e1 : wagi ⟨1, by decide⟩ = 3 := rfl
  have e2 : wagi ⟨2, by decide⟩ = 7 := rfl
  have e3 : wagi ⟨3, by decide⟩ = 9 := rfl
  have e4 : wagi ⟨4, by decide⟩ = 1 := rfl
  have e5 : wagi ⟨5, by decide⟩ = 3 := rfl
  have e6 : wagi ⟨6, by decide⟩ = 7 := rfl
  have e7 : wagi ⟨7, by decide⟩ = 9 := rfl
  have e8 : wagi ⟨8, by decide⟩ = 1 := rfl
  have e9 : wagi ⟨9, by decide⟩ = 3 := rfl
  rw [sumaLoop, dif_pos (by decide), sumaLoop, dif_pos (by decide), sumaLoop,
    dif_pos (by decide), sumaLoop, dif_pos (by decide), sumaLoop, dif_pos (by decide),
    sumaLoop, dif_pos (by decide), sumaLoop, dif_pos (by decide), sumaLoop,
    dif_pos (by decide), sumaLoop, dif_pos (by decide), sumaLoop, dif_pos (by decide),
    sumaLoop, dif_neg (by decide)]
  simp only [Nat.zero_add, Nat.reduceAdd, e0, e1, e2, e3, e4, e5, e6, e7, e8, e9,
    wrap64_add_wrap64, wrap64_wrap64_add, zero_add]
  rfl

theorem tmod_ten_neg (a : Int) (h : a < 0) : a.tmod 10 = -((-a) % 10) := by
  cases a with
  | ofNat n => exact absurd h (by simp)
  | negSucc n =>
    have h1 : Int.tmod (Int.negSucc n) ((10 : Nat) : Int) = -Int.ofNat (n.succ % 10) := rfl
    have h2 : (10 : Int) = ((10 : Nat) : Int) := rfl
    rw [h2, h1, Int.neg_negSucc]
    norm_cast

/-- Go's `%` on a divisor 10, by the sign of the dividend. -/
theorem tmod_ten (a : Int) :
    (0 ≤ a ∧ a.tmod 10 = a % 10) ∨ (a < 0 ∧ a.tmod 10 = -((-a) % 10)) := by
  rcases lt_or_le a 0 with h | h
  · exact Or.inr ⟨h, tmod_ten_neg a h⟩
  · exact Or.inl ⟨h, Int.tmod_eq_emod h (by decide)⟩

/-- The check digit, from the sum the loop computes: it is in 0..9 and
completes the sum to a multiple of 10. -/
theorem kontrolna_spec (suma : Int) :
    0 ≤ (10 - suma.tmod 10).tmod 10 ∧ (10 - suma.tmod 10).tmod 10 ≤ 9 ∧
    (suma + (10 - suma.tmod 10).tmod 10) % 10 = 0 := by
  rcases tmod_ten suma with ⟨h, e⟩ | ⟨h, e⟩
  · rw [e]
    rcases tmod_ten (10 - suma % 10) with ⟨_, e'⟩ | ⟨h', _⟩
    · rw [e']; omega
    · omega
  · rw [e]
    rcases tmod_ten (10 - -(-suma % 10)) with ⟨_, e'⟩ | ⟨h', _⟩
    · rw [e']; omega
    · omega

theorem ObliczCyfreKontrolna_eq (p : Pesel) :
    ObliczCyfreKontrolna p = (10 - (wrap64 (weightedSum p)).tmod 10).tmod 10 := by
  unfold ObliczCyfreKontrolna
  rw [sumaLoop_eq]

theorem weightedSum_update_last (p : Pesel) (v : Int) :
    weightedSum (Function.update p 10 v) = weightedSum p := by
  simp [weightedSum, Function.update]

theorem weightedSum_range_of_digits (p : Pesel) (hd : ∀ i : Fin 11, 0 ≤ p i ∧ p i ≤ 9) :
    0 ≤ weightedSum p ∧ weightedSum p ≤ 396 := by
  have h0 := hd 0
  have h1 := hd 1
  have h2 := hd 2
  have h3 := hd 3
  have h4 := hd 4
  have h5 := hd 5
  have h6 := hd 6
  have h7 := hd 7
  have h8 := hd 8
  have h9 := hd 9
  unfold weightedSum
  omega

/-- With a check digit in 0..9, verification succeeds exactly when the sum the
code computes, plus the check digit, is a multiple of 10. -/
theorem WeryfikujPESEL_iff (p : Pesel) (h0 : 0 ≤ p 10) (h9 : p 10 ≤ 9) :
    WeryfikujPESEL p = true ↔ (wrap64 (weightedSum p) + p 10) % 10 = 0 := by
  unfold WeryfikujPESEL
  rw [decide_eq_true_eq, ObliczCyfreKontrolna_eq]
  obtain ⟨k0, k9, kd⟩ := kontrolna_spec (wrap64 (weightedSum p))
  constructor
  · intro h; rw [h]; exact kd
  · intro h; omega

/-- Claim C15, as the code has it.  The array `overflowPesel` (the largest
`int`, then `1`, then zeros) has the exact weighted sum `2 ^ 63 + 2`, which
does not fit in an `int`; the code computes the check digit `6` from the
wrapped sum, and the exact weighted sum plus `6` is not a multiple of 10.
With `6` as last element the array passes `WeryfikujPESEL` although the
weighted sum of its eleven elements is not divisible by 10.  Reading the sum
of the claim in the arithmetic of `int` does not help: for `maxPesel` (the
largest `int`, then zeros) the check digit is `3` and the sum plus `3`,
wrapped to 64 bits, is not a multiple of 10. -/
theorem ObliczCyfreKontrolna_overflow :
    weightedSum overflowPesel = 2 ^ 63 + 2 ∧
    ObliczCyfreKontrolna overflowPesel = 6 ∧
    (weightedSum overflowPesel + ObliczCyfreKontrolna overflowPesel) % 10 ≠ 0 ∧
    WeryfikujPESEL (Function.update overflowPesel 10 6) = true ∧
    (weightedSum (Function.update overflowPesel 10 6) +
      Function.update overflowPesel 10 6 10) % 10 ≠ 0 ∧
    ObliczCyfreKontrolna maxPesel = 3 ∧
    wrap64 (weightedSum maxPesel + ObliczCyfreKontrolna maxPesel) % 10 ≠ 0 := by
  have hs : weightedSum overflowPesel = 2 ^ 63 + 2 := by decide
  have hc : ObliczCyfreKontrolna overflowPesel = 6 := by
    rw [ObliczCyfreKontrolna_eq, hs]
    decide
  have hs' : weightedSum maxPesel = 2 ^ 63 - 1 := by decide
  have hc' : ObliczCyfreKontrolna maxPesel = 3 := by
    rw [ObliczCyfreKontrolna_eq, hs']
    decide
  refine ⟨hs, hc, ?_, ?_, ?_, hc', ?_⟩
  · rw [hs, hc]; decide
  · unfold WeryfikujPESEL
    rw [decide_eq_true_eq, ObliczCyfreKontrolna_eq, weightedSum_update_last, hs]
    decide
  · rw [weightedSum_update_last, hs]
    decide
  · rw [hs', hc']; decide

/-- Claim C15, amended.  For every array of eleven `int`s the check digit `c`
returned by `ObliczCyfreKontrolna` is in 0..9, does not depend on element 10,
and completes the weighted sum as the code computes it (modulo `2 ^ 64`) to a
multiple of 10; for a last element in 0..9, `WeryfikujPESEL` holds exactly
when that sum plus the last element is a multiple of 10.  When the exact
weighted sum fits in an `int`, as it does when all elements are digits, the
same holds of the exact weighted sum. -/
theorem ObliczCyfreKontrolna_checksum (p : Pesel) :
    0 ≤ ObliczCyfreKontrolna p ∧ ObliczCyfreKontrolna p ≤ 9 ∧
    (∀ v : Int, ObliczCyfreKontrolna (Function.update p 10 v) = ObliczCyfreKontrolna p) ∧
    (wrap64 (weightedSum p) + ObliczCyfreKontrolna p) % 10 = 0 ∧
    (0 ≤ p 10 → p 10 ≤ 9 →
      (WeryfikujPESEL p = true ↔ (wrap64 (weightedSum p) + p 10) % 10 = 0)) ∧
    (-2 ^ 63 ≤ weightedSum p → weightedSum p < 2 ^ 63 →
      (weightedSum p + ObliczCyfreKontrolna p) % 10 = 0 ∧
      (0 ≤ p 10 → p 10 ≤ 9 →
        (WeryfikujPESEL p = true ↔ (weightedSum p + p 10) % 10 = 0))) ∧
    ((∀ i : Fin 11, 0 ≤ p i ∧ p i ≤ 9) →
      -2 ^ 63 ≤ weightedSum p ∧ weightedSum p < 2 ^ 63) := by
  obtain ⟨k0, k9, kd⟩ := kontrolna_spec (wrap64 (weightedSum p))
  rw [← ObliczCyfreKontrolna_eq] at k0 k9 kd
  refine ⟨k0, k9, fun v => ObliczCyfreKontrolna_update_last p v, kd,
    WeryfikujPESEL_iff p, ?_, ?_⟩
  · intro h1 h2
    have hw := wrap64_of_range (weightedSum p) h1 h2
    rw [hw] at kd
    refine ⟨kd, fun h0 h9 => ?_⟩
    have := WeryfikujPESEL_iff p h0 h9
    rw [hw] at this
    exact this
  · intro hd
    have := weightedSum_range_of_digits p hd
    constructor <;> omega

theorem ObliczCyfreKontrolna_checksum_witness :
    ObliczCyfreKontrolna samplePesel = 8 ∧ WeryfikujPESEL samplePesel = true ∧
    (weightedSum samplePesel + samplePesel 10) % 10 = 0 := by
  have hs : weightedSum samplePesel = 132 := by decide
  have hc : ObliczCyfreKontrolna samplePesel = 8 := by
    rw [ObliczCyfreKontrolna_eq, hs]; decide
  have hmod : (weightedSum samplePesel + samplePesel 10) % 10 = 0 := by
    rw [hs]; decide
  have h := (ObliczCyfreKontrolna_checksum samplePesel).2.2.2.2.2.1
    (by rw [hs]; decide) (by rw [hs]; decide)
  exact ⟨hc, (h.2 (by decide) (by decide)).mpr hmod, hmod⟩

/-- Claim C16.  The checksum detects every single-digit error: when all
eleven elements of `p` are digits and `p` passes `WeryfikujPESEL`, replacing
the digit at any position `i` by a different digit `d` gives an array that
fails `WeryfikujPESEL`. -/
theorem WeryfikujPESEL_detects_single_digit_error (p : Pesel)
    (hd : ∀ i : Fin 11, 0 ≤ p i ∧ p i ≤ 9) (hv : WeryfikujPESEL p = true)
    (i : Fin 11) (d : Int) (hd0 : 0 ≤ d) (hd9 : d ≤ 9) (hne : d ≠ p i) :
    WeryfikujPESEL (Function.update p i d) = false := by
  have hq : ∀ j : Fin 11, 0 ≤ Function.update p i d j ∧ Function.update p i d j ≤ 9 := by
    intro j
    by_cases hj : j = i
    · subst hj; simp [hd0, hd9]
    · rw [Function.update_noteq hj]; exact hd j
  have hp := weightedSum_range_of_digits p hd
  have hqr := weightedSum_range_of_digits _ hq
  have hwp := wrap64_of_range (weightedSum p) (by omega) (by omega)
  have hwq := wrap64_of_range (weightedSum (Function.update p i d)) (by omega) (by omega)
  have hvp := (WeryfikujPESEL_iff p (hd 10).1 (hd 10).2).mp hv
  rw [hwp] at hvp
  cases hres : WeryfikujPESEL (Function.update p i d)
  · rfl
  · exfalso
    have hvq := (WeryfikujPESEL_iff _ (hq 10).1 (hq 10).2).mp hres
    rw [hwq] at hvq
    have h0 := hd 0
    have h1 := hd 1
    have h2 := hd 2
    have h3 := hd 3
    have h4 := hd 4
    have h5 := hd 5
    have h6 := hd 6
    have h7 := hd 7
    have h8 := hd 8
    have h9 := hd 9
    have h10 := hd 10
    unfold weightedSum at hvp hvq
    fin_cases i <;> simp [Function.update] at hvq hne <;> omega

theorem WeryfikujPESEL_detects_single_digit_error_witness :
    (∀ i : Fin 11, 0 ≤ samplePesel i ∧ samplePesel i ≤ 9) ∧
    WeryfikujPESEL samplePesel = true ∧
    WeryfikujPESEL (Function.update samplePesel 3 7) = false :=
  have hd : ∀ i : Fin 11, 0 ≤ samplePesel i ∧ samplePesel i ≤ 9 := by decide
  have hv : WeryfikujPESEL samplePesel = true := by
    unfold WeryfikujPESEL
    rw [decide_eq_true_eq, ObliczCyfreKontrolna_eq]
    decide
  ⟨hd, hv, WeryfikujPESEL_detects_single_digit_error samplePesel hd hv 3 7 (by decide)
    (by decide) (by decide)⟩

/-! ## The digits of a generated PESEL -/

/-- The first ten elements of the array `GenerujPESEL` returns, as the
source assigns them. -/
theorem GenerujPESEL_digits (birthDate : Date) (gender : String) (d : PeselDraw) :
    GenerujPESEL birthDate gender d 0 = (birthDate.year.tmod 100).tdiv 10 ∧
    GenerujPESEL birthDate gender d 1 = (birthDate.year.tmod 100).tmod 10 ∧
    GenerujPESEL birthDate gender d 2 = (monthCode birthDate.year birthDate.month).tdiv 10 ∧
    GenerujPESEL birthDate gender d 3 = (monthCode birthDate.year birthDate.month).tmod 10 ∧
    GenerujPESEL birthDate gender d 4 = birthDate.day.tdiv 10 ∧
    GenerujPESEL birthDate gender d 5 = birthDate.day.tmod 10 ∧
    GenerujPESEL birthDate gender d 6 = ((d.serial.val : Int)).tdiv 100 ∧
    GenerujPESEL birthDate gender d 7 = (((d.serial.val : Int)).tdiv 10).tmod 10 ∧
    GenerujPESEL birthDate gender d 8 = ((d.serial.val : Int)).tmod 10 ∧
    GenerujPESEL birthDate gender d 9 =
      (if gender = "M" then (d.gender.val : Int) * 2 + 1 else (d.gender.val : Int) * 2) := by
  unfold GenerujPESEL
  by_cases hg : gender = "M" <;> simp [Function.update, hg]

/-- Claim C12.  For every birth date and every outcome of the random draws,
the gender digit `pesel[9]` produced by `GenerujPESEL` is odd when
`gender == "M"` and even for every other gender string, and the serial digits
`pesel[6]`, `pesel[7]`, `pesel[8]` and `pesel[9]` are each in 0..9. -/
theorem GenerujPESEL_gender_and_serial_digits (birthDate : Date) (gender : String)
    (d : PeselDraw) :
    (gender = "M" → GenerujPESEL birthDate gender d 9 % 2 = 1) ∧
    (gender ≠ "M" → GenerujPESEL birthDate gender d 9 % 2 = 0) ∧
    (∀ i : Fin 11, 6 ≤ i.val → i.val ≤ 9 →
      0 ≤ GenerujPESEL birthDate gender d i ∧ GenerujPESEL birthDate gender d i ≤ 9) := by
  obtain ⟨_, _, _, _, _, _, e6, e7, e8, e9⟩ := GenerujPESEL_digits birthDate gender d
  have hs0 : (0 : Int) ≤ (d.serial.val : Int) := Int.ofNat_nonneg _
  have hs1 : (d.serial.val : Int) < 1000 := by exact_mod_cast d.serial.isLt
  have hg0 : (0 : Int) ≤ (d.gender.val : Int) := Int.ofNat_nonneg _
  have hg1 : (d.gender.val : Int) < 5 := by exact_mod_cast d.gender.isLt
  have t6 : ((d.serial.val : Int)).tdiv 100 = (d.serial.val : Int) / 100 :=
    Int.tdiv_eq_ediv hs0 (by decide)
  have t7a : ((d.serial.val : Int)).tdiv 10 = (d.serial.val : Int) / 10 :=
    Int.tdiv_eq_ediv hs0 (by decide)
  have t7 : (((d.serial.val : Int)).tdiv 10).tmod 10 = ((d.serial.val : Int) / 10) % 10 := by
    rw [t7a]; exact Int.tmod_eq_emod (by omega) (by decide)
  have t8 : ((d.serial.val : Int)).tmod 10 = (d.serial.val : Int) % 10 :=
    Int.tmod_eq_emod hs0 (by decide)
  rw [t6] at e6
  rw [t7] at e7
  rw [t8] at e8
  refine ⟨?_, ?_, ?_⟩
  · intro hg
    rw [e9, if_pos hg]; omega
  · intro hg
    rw [e9, if_neg hg]; omega
  · intro i h6 h9
    have hi : i = 6 ∨ i = 7 ∨ i = 8 ∨ i = 9 := by
      rcases (show i.val = 6 ∨ i.val = 7 ∨ i.val = 8 ∨ i.val = 9 by omega) with h | h | h | h
      · exact Or.inl (Fin.ext h)
      · exact Or.inr (Or.inl (Fin.ext h))
      · exact Or.inr (Or.inr (Or.inl (Fin.ext h)))
      · exact Or.inr (Or.inr (Or.inr (Fin.ext h)))
    rcases hi with rfl | rfl | rfl | rfl
    · rw [e6]; omega
    · rw [e7]; omega
    · rw [e8]; omega
    · rw [e9]; split <;> omega

/-- The first six digits for a year between 1800 and 2299: they are digits
and spell the year modulo 100, the month code and the day. -/
theorem GenerujPESEL_date_digits (birthDate : Date) (gender : String) (d : PeselDraw)
    (hy1 : 1800 ≤ birthDate.year) (hy2 : birthDate.year ≤ 2299) :
    (∀ i : Fin 11, i.val < 6 →
      0 ≤ GenerujPESEL birthDate gender d i ∧ GenerujPESEL birthDate gender d i ≤ 9) ∧
    GenerujPESEL birthDate gender d 0 * 10 + GenerujPESEL birthDate gender d 1 =
      birthDate.year % 100 ∧
    GenerujPESEL birthDate gender d 2 * 10 + GenerujPESEL birthDate gender d 3 =
      monthCode birthDate.year birthDate.month ∧
    GenerujPESEL birthDate gender d 4 * 10 + GenerujPESEL birthDate gender d 5 =
      birthDate.day := by
  obtain ⟨e0, e1, e2, e3, e4, e5, _⟩ := GenerujPESEL_digits birthDate gender d
  have hm := birthDate.month_ok
  have hday := birthDate.day_ok
  have hmc0 : 0 ≤ monthCode birthDate.year birthDate.month := by
    unfold monthCode; split_ifs <;> omega
  have hmc1 : monthCode birthDate.year birthDate.month ≤ 92 := by
    unfold monthCode; split_ifs <;> omega
  have ty : birthDate.year.tmod 100 = birthDate.year % 100 :=
    Int.tmod_eq_emod (by omega) (by decide)
  have t0 : (birthDate.year.tmod 100).tdiv 10 = (birthDate.year % 100) / 10 := by
    rw [ty]; exact Int.tdiv_eq_ediv (by omega) (by decide)
  have t1 : (birthDate.year.tmod 100).tmod 10 = (birthDate.year % 100) % 10 := by
    rw [ty]; exact Int.tmod_eq_emod (by omega) (by decide)
  have t2 : (monthCode birthDate.year birthDate.month).tdiv 10 =
      monthCode birthDate.year birthDate.month / 10 := Int.tdiv_eq_ediv hmc0 (by decide)
  have t3 : (monthCode birthDate.year birthDate.month).tmod 10 =
      monthCode birthDate.year birthDate.month % 10 := Int.tmod_eq_emod hmc0 (by decide)
  have t4 : birthDate.day.tdiv 10 = birthDate.day / 10 :=
    Int.tdiv_eq_ediv (by omega) (by decide)
  have t5 : birthDate.day.tmod 10 = birthDate.day % 10 :=
    Int.tmod_eq_emod (by omega) (by decide)
  rw [t0] at e0
  rw [t1] at e1
  rw [t2] at e2
  rw [t3] at e3
  rw [t4] at e4
  rw [t5] at e5
  refine ⟨?_, by rw [e0, e1]; omega, by rw [e2, e3]; omega, by rw [e4, e5]; omega⟩
  intro i hi
  have hcases : i = 0 ∨ i = 1 ∨ i = 2 ∨ i = 3 ∨ i = 4 ∨ i = 5 := by
    rcases (show i.val = 0 ∨ i.val = 1 ∨ i.val = 2 ∨ i.val = 3 ∨ i.val = 4 ∨ i.val = 5 by
      omega) with h | h | h | h | h | h
    · exact Or.inl (Fin.ext h)
    · exact Or.inr (Or.inl (Fin.ext h))
    · exact Or.inr (Or.inr (Or.inl (Fin.ext h)))
    · exact Or.inr (Or.inr (Or.inr (Or.inl (Fin.ext h))))
    · exact Or.inr (Or.inr (Or.inr (Or.inr (Or.inl (Fin.ext h)))))
    · exact Or.inr (Or.inr (Or.inr (Or.inr (Or.inr (Fin.ext h)))))
  rcases hcases with rfl | rfl | rfl | rfl | rfl | rfl
  · rw [e0]; omega
  · rw [e1]; omega
  · rw [e2]; omega
  · rw [e3]; omega
  · rw [e4]; omega
  · rw [e5]; omega

/-- Claim C13.  For every birth date with a year in 1800..2299 the first six
digits produced by `GenerujPESEL` are in 0..9 and spell the year modulo 100,
the month plus the offset of the century (80 for 1800-1899, 0 for 1900-1999,
20 for 2000-2099, 40 for 2100-2199, 60 for 2200-2299) and the day; and two
birth dates in that range whose identifiers have the same first six digits
have the same year, month and day. -/
theorem GenerujPESEL_date_encoding (birthDate : Date) (gender : String) (d : PeselDraw)
    (hy1 : 1800 ≤ birthDate.year) (hy2 : birthDate.year ≤ 2299) :
    (∀ i : Fin 11, i.val < 6 →
      0 ≤ GenerujPESEL birthDate gender d i ∧ GenerujPESEL birthDate gender d i ≤ 9) ∧
    GenerujPESEL birthDate gender d 0 * 10 + GenerujPESEL birthDate gender d 1 =
      birthDate.year % 100 ∧
    (birthDate.year ≤ 1899 →
      GenerujPESEL birthDate gender d 2 * 10 + GenerujPESEL birthDate gender d 3 =
        birthDate.month + 80) ∧
    (1900 ≤ birthDate.year → birthDate.year ≤ 1999 →
      GenerujPESEL birthDate gender d 2 * 10 + GenerujPESEL birthDate gender d 3 =
        birthDate.month) ∧
    (2000 ≤ birthDate.year → birthDate.year ≤ 2099 →
      GenerujPESEL birthDate gender d 2 * 10 + GenerujPESEL birthDate gender d 3 =
        birthDate.month + 20) ∧
    (2100 ≤ birthDate.year → birthDate.year ≤ 2199 →
      GenerujPESEL birthDate gender d 2 * 10 + GenerujPESEL birthDate gender d 3 =
        birthDate.month + 40) ∧
    (2200 ≤ birthDate.year →
      GenerujPESEL birthDate gender d 2 * 10 + GenerujPESEL birthDate gender d 3 =
        birthDate.month + 60) ∧
    GenerujPESEL birthDate gender d 4 * 10 + GenerujPESEL birthDate gender d 5 =
      birthDate.day ∧
    (∀ (other : Date) (gender' : String) (d' : PeselDraw),
      1800 ≤ other.year → other.year ≤ 2299 →
      (∀ i : Fin 11, i.val < 6 →
        GenerujPESEL other gender' d' i = GenerujPESEL birthDate gender d i) →
      other.year = birthDate.year ∧ other.month = birthDate.month ∧
        other.day = birthDate.day) := by
  obtain ⟨hdig, hy, hmo, hda⟩ := GenerujPESEL_date_digits birthDate gender d hy1 hy2
  refine ⟨hdig, hy, ?_, ?_, ?_, ?_, ?_, hda, ?_⟩
  · intro h; rw [hmo]; unfold monthCode; split_ifs <;> omega
  · intro h1 h2; rw [hmo]; unfold monthCode; split_ifs <;> omega
  · intro h1 h2; rw [hmo]; unfold monthCode; split_ifs <;> omega
  · intro h1 h2; rw [hmo]; unfold monthCode; split_ifs <;> omega
  · intro h; rw [hmo]; unfold monthCode; split_ifs <;> omega
  · intro other gender' d' ho1 ho2 heq
    obtain ⟨_, oy, omo, oda⟩ := GenerujPESEL_date_digits other gender' d' ho1 ho2
    rw [heq 0 (by decide), heq 1 (by decide), hy] at oy
    rw [heq 2 (by decide), heq 3 (by decide), hmo] at omo
    rw [heq 4 (by decide), heq 5 (by decide), hda] at oda
    have hm := birthDate.month_ok
    have hm' := other.month_ok
    unfold monthCode at omo
    refine ⟨?_, ?_, oda.symm⟩ <;> split_ifs at omo <;> omega

theorem GenerujPESEL_date_encoding_witness :
    1800 ≤ sampleDate1899.year ∧ sampleDate1899.year ≤ 2299 ∧
    GenerujPESEL sampleDate1899 "K" samplePeselDraw 0 * 10 +
      GenerujPESEL sampleDate1899 "K" samplePeselDraw 1 = 99 ∧
    GenerujPESEL sampleDate1899 "K" samplePeselDraw 2 * 10 +
      GenerujPESEL sampleDate1899 "K" samplePeselDraw 3 = 92 ∧
    GenerujPESEL sampleDate1899 "K" samplePeselDraw 4 * 10 +
      GenerujPESEL sampleDate1899 "K" samplePeselDraw 5 = 31 :=
  have h := GenerujPESEL_date_encoding sampleDate1899 "K" samplePeselDraw (by decide) (by decide)
  ⟨by decide, by decide, h.2.1, h.2.2.1 (by decide), h.2.2.2.2.2.2.2.1⟩

end Lab1

namespace Lab2

/-! ## Sorting by `CodeCPV` -/

theorem strCompare_self (a : GoString) : strCompare a a = Ordering.eq := by
  induction a with
  | nil => rfl
  | cons x xs ih => simp [strCompare, ih]

theorem strCompare_eq (a : GoString) : ∀ b, strCompare a b = Ordering.eq → a = b := by
  induction a with
  | nil =>
    intro b h
    cases b with
    | nil => rfl
    | cons y ys => simp [strCompare] at h
  | cons x xs ih =>
    intro b h
    cases b with
    | nil => simp [strCompare] at h
    | cons y ys =>
      simp only [strCompare] at h
      split_ifs at h with h1 h2
      have hxy : x = y := le_antisymm (not_lt.mp h2) (not_lt.mp h1)
      rw [hxy, ih ys h]

theorem strCompare_swap (a : GoString) :
    ∀ b, strCompare a b = Ordering.gt ↔ strCompare b a = Ordering.lt := by
  induction a with
  | nil =>
    intro b
    cases b <;> simp [strCompare]
  | cons x xs ih =>
    intro b
    cases b with
    | nil => simp [strCompare]
    | cons y ys =>
      simp only [strCompare]
      by_cases h1 : x < y
      · have h2 : ¬ y < x := lt_asymm h1
        simp [h1, h2]
      · by_cases h2 : y < x
        · simp [h1, h2]
        · simp [h1, h2, ih ys]

theorem strCompare_lt_trans (a : GoString) :
    ∀ b c, strCompare a b = Ordering.lt → strCompare b c = Ordering.lt →
      strCompare a c = Ordering.lt := by
  induction a with
  | nil =>
    intro b c hab hbc
    cases b with
    | nil => simp [strCompare] at hab
    | cons y ys =>
      cases c with
      | nil => simp [strCompare] at hbc
      | cons z zs => simp [strCompare]
  | cons x xs ih =>
    intro b c hab hbc
    cases b with
    | nil => simp [strCompare] at hab
    | cons y ys =>
      cases c with
      | nil => simp [strCompare] at hbc
      | cons z zs =>
        simp only [strCompare] at hab hbc ⊢
        by_cases hxy : x < y
        · by_cases hyz : y < z
          · simp [lt_trans hxy hyz]
          · simp only [hyz, if_false] at hbc
            by_cases hzy : z < y
            · simp [hzy] at hbc
            · have : y = z := le_antisymm (not_lt.mp hzy) (not_lt.mp hyz)
              subst this
              simp [hxy]
        · simp only [hxy, if_false] at hab
          by_cases hyx : y < x
          · simp [hyx] at hab
          · have hxy' : x = y := le_antisymm (not_lt.mp hyx) (not_lt.mp hxy)
            subst hxy'
            simp only [hyx, if_false] at hab
            by_cases hxz : x < z
            · simp [hxz]
            · simp only [hxz, if_false] at hbc ⊢
              by_cases hzx : z < x
              · simp [hzx] at hbc
              · simp only [hzx, if_false] at hbc ⊢
                exact ih ys zs hab hbc

theorem strLess_iff (a b : GoString) : strLess a b = true ↔ strCompare a b = Ordering.lt := by
  unfold strLess
  cases strCompare a b <;> simp

theorem strLess_false_iff (a b : GoString) :
    strLess a b = false ↔ strCompare a b ≠ Ordering.lt := by
  unfold strLess
  cases strCompare a b <;> simp

theorem strLeq_iff (a b : GoString) : strLeq a b = true ↔ strCompare a b ≠ Ordering.gt := by
  unfold strLeq
  cases strCompare a b <;> simp

/-- On Go strings, `b < a` is false exactly when `a <= b`. -/
theorem strLeq_iff_not_strLess (a b : GoString) : strLeq a b = true ↔ strLess b a = false := by
  rw [strLeq_iff, strLess_false_iff]
  exact not_congr (strCompare_swap a b)

/-- The comparison `sortByCodeCPV` hands to `sort.Slice` is a strict weak
ordering. -/
theorem lessCodeCPV_strictWeakOrder :
    StrictWeakOrder (fun a b : Product => strLess a.CodeCPV b.CodeCPV) := by
  have hinc : ∀ a b : GoString, strLess a b = false → strLess b a = false → a = b := by
    intro a b h1 h2
    apply strCompare_eq
    rw [strLess_false_iff] at h1 h2
    have hsw := strCompare_swap a b
    cases h3 : strCompare a b
    · exact absurd h3 h1
    · rfl
    · exact absurd (hsw.mp h3) h2
  refine ⟨?_, ?_, ?_⟩
  · intro a
    rw [strLess_false_iff, strCompare_self]
    decide
  · intro a b c h1 h2
    rw [strLess_iff] at h1 h2 ⊢
    exact strCompare_lt_trans _ _ _ h1 h2
  · intro a b c h1 h2 h3 h4
    have e1 := hinc _ _ h1 h2
    have e2 := hinc _ _ h3 h4
    rw [e1, e2, strLess_false_iff, strCompare_self]
    exact ⟨by decide, by decide⟩

/-- Insertion sort meets the contract of `sort.Slice`. -/
theorem insertionSortSlice_contract : SortSliceContract insertionSortSlice := by
  intro less xs hswo
  have hasymm : ∀ a b, less a b = true → less b a = false := by
    intro a b hab
    cases hba : less b a
    · rfl
    · have := hswo.trans a b a hab hba
      rw [hswo.irrefl a] at this
      cases this
  haveI : IsTotal Product (fun a b => less b a = false) := ⟨by
    intro a b
    cases hba : less b a
    · exact Or.inl rfl
    · exact Or.inr (hasymm b a hba)⟩
  haveI : IsTrans Product (fun a b => less b a = false) := ⟨by
    intro a b c hba hcb
    cases hca : less c a
    · rfl
    · exfalso
      cases hab : less a b
      · cases hbc : less b c
        · have := (hswo.incomp a b c hab hba hbc hcb).2
          rw [hca] at this; cases this
        · have := hswo.trans b c a hbc hca
          rw [hba] at this; cases this
      · have := hswo.trans c a b hca hab
        rw [hcb] at this; cases this⟩
  exact ⟨List.perm_insertionSort _ xs, (List.sorted_insertionSort _ xs).chain'⟩

/-- Claim C14.  For every slice of products, after `sortByCodeCPV` the slice
is in non-decreasing order of `CodeCPV` (each element's code is `<=` the code
of the next one) and is a permutation of the slice before the call, of the
same length; `sort.Slice` is any function that meets the contract of the
standard library. -/
theorem sortByCodeCPV_sorted_perm
    (sortSlice : (Product → Product → Bool) → List Product → List Product)
    (hsort : SortSliceContract sortSlice) (products : List Product) :
    List.Chain' (fun a b => strLeq a.CodeCPV b.CodeCPV = true)
      (sortByCodeCPV sortSlice products) ∧
    (sortByCodeCPV sortSlice products).Perm products ∧
    (sortByCodeCPV sortSlice products).length = products.length := by
  obtain ⟨hperm, hchain⟩ := hsort (fun a b => strLess a.CodeCPV b.CodeCPV) products
    lessCodeCPV_strictWeakOrder
  refine ⟨?_, hperm, hperm.length_eq⟩
  unfold sortByCodeCPV
  exact hchain.imp (fun {a b} h => (strLeq_iff_not_strLess a.CodeCPV b.CodeCPV).mpr h)

theorem sortByCodeCPV_sorted_perm_witness :
    SortSliceContract insertionSortSlice ∧
    sortByCodeCPV insertionSortSlice sampleProducts =
      [sampleProduct [48, 51] [98], sampleProduct [51] [99], sampleProduct [51, 49] [97]] ∧
    List.Chain' (fun a b => strLeq a.CodeCPV b.CodeCPV = true)
      (sortByCodeCPV insertionSortSlice sampleProducts) ∧
    (sortByCodeCPV insertionSortSlice sampleProducts).Perm sampleProducts :=
  ⟨insertionSortSlice_contract, by decide,
   (sortByCodeCPV_sorted_perm insertionSortSlice insertionSortSlice_contract sampleProducts).1,
   (sortByCodeCPV_sorted_perm insertionSortSlice insertionSortSlice_contract
      sampleProducts).2.1⟩

end Lab2

namespace Lab3

/-! ## The map of a directory -/

theorem GoMap.get_filter_ne {V : Type} (m : GoMap V) (k k' : String) (h : k' ≠ k) :
    GoMap.get (m.filter (fun e => !(e.1 == k))) k' = GoMap.get m k' := by
  unfold GoMap.get
  rw [List.find?_filter]
  have hfun : (fun e : String × V => decide ((!(e.1 == k)) = true ∧ (e.1 == k') = true)) =
      (fun e => e.1 == k') := by
    funext e
    by_cases hk' : e.1 = k'
    · have hk : ¬ e.1 = k := fun hk => h (hk'.symm.trans hk)
      simp [hk, hk', h]
    · simp [hk']
  rw [hfun]

theorem GoMap.get_filter_same {V : Type} (m : GoMap V) (k : String) :
    GoMap.get (m.filter (fun e => !(e.1 == k))) k = none := by
  unfold GoMap.get
  simp only [Option.map_eq_none', List.find?_eq_none, List.mem_filter]
  intro e he
  simpa using he.2

theorem GoMap.filter_of_get_none {V : Type} (m : GoMap V) (k : String)
    (h : GoMap.get m k = none) : m.filter (fun e => !(e.1 == k)) = m := by
  unfold GoMap.get at h
  simp only [Option.map_eq_none', List.find?_eq_none] at h
  apply List.filter_eq_self.mpr
  intro e he
  simpa using h e he

theorem GoMap.get_set_same {V : Type} (m : GoMap V) (k : String) (v : V) :
    GoMap.get (GoMap.set m k v) k = some v := by
  simp [GoMap.get, GoMap.set]

theorem GoMap.get_set_ne {V : Type} (m : GoMap V) (k k' : String) (v : V) (h : k' ≠ k) :
    GoMap.get (GoMap.set m k v) k' = GoMap.get m k' := by
  have h' : (k == k') = false := by
    simp only [beq_eq_false_iff_ne]
    exact fun e => h e.symm
  have hf := GoMap.get_filter_ne m k k' h
  unfold GoMap.get at hf ⊢
  unfold GoMap.set
  rw [List.find?_cons]
  simp only [h']
  exact hf

theorem GoMap.wf_filter {V : Type} (m : GoMap V) (p : String × V → Bool) (h : GoMap.WF m) :
    GoMap.WF (m.filter p) := by
  unfold GoMap.WF at h ⊢
  exact h.sublist ((List.filter_sublist m).map Prod.fst)

theorem GoMap.wf_set {V : Type} (m : GoMap V) (k : String) (v : V) (h : GoMap.WF m) :
    GoMap.WF (GoMap.set m k v) := by
  have hf := GoMap.wf_filter m (fun e => !(e.1 == k)) h
  unfold GoMap.WF at hf ⊢
  simp only [GoMap.set, List.map_cons, List.nodup_cons]
  refine ⟨?_, hf⟩
  intro hmem
  obtain ⟨e, he, hek⟩ := List.mem_map.mp hmem
  have := (List.mem_filter.mp he).2
  simp [hek] at this

/-- In a map with one entry per key, the entry found for a key is the only
entry with that key. -/
theorem GoMap.length_filter_of_get_some {V : Type} (m : GoMap V) (k : String)
    (hwf : GoMap.WF m) (h : (GoMap.get m k).isSome = true) :
    (m.filter (fun e => !(e.1 == k))).length + 1 = m.length := by
  unfold GoMap.get at h
  unfold GoMap.WF at hwf
  induction m with
  | nil => simp at h
  | cons e t ih =>
    simp only [List.map_cons, List.nodup_cons] at hwf
    by_cases hk : e.1 = k
    · have hnot : ∀ e' ∈ t, ¬ e'.1 = k := by
        intro e' he' hk'
        exact hwf.1 (List.mem_map.mpr ⟨e', he', hk'.trans hk.symm⟩)
      have hfil : t.filter (fun e => !(e.1 == k)) = t := by
        apply List.filter_eq_self.mpr
        intro e' he'
        simpa using hnot e' he'
      simp [List.filter_cons, hk, hfil]
    · have h' : (Option.map Prod.snd (List.find? (fun e => e.1 == k) t)).isSome = true := by
        simpa [List.find?_cons, hk] using h
      have := ih hwf.2 h'
      simp [List.filter_cons, hk]
      omega

/-- Claim C17.  For every directory and item, `AddItem` returns
`ErrItemExists` exactly when an item is stored under `item.Name()`, and then
the directory is unchanged (the entry is not replaced, `Size()` is the same);
otherwise it returns nil, the item is stored under its name, every other
entry is unchanged and `Size()` grows by exactly 1.  `RemoveItem(name)`
returns `ErrItemNotFound` exactly when `name` is absent, and then the
directory is unchanged; otherwise it returns nil, removes the entry of `name`
and leaves every other entry unchanged (`Size()` shrinks by exactly 1).  Both
keep the map with one entry per key. -/
theorem DirectoryImpl_AddItem_RemoveItem (d : DirectoryImpl Item) (item : Item)
    (name : String) (now : Time) :
    ((d.AddItem item now).2 = some Error.ErrItemExists ↔
      (GoMap.get d.items item.Name).isSome = true) ∧
    ((GoMap.get d.items item.Name).isSome = true →
      (d.AddItem item now).1 = d ∧ (d.AddItem item now).1.Size = d.Size) ∧
    ((GoMap.get d.items item.Name).isSome = false →
      (d.AddItem item now).2 = none ∧
      GoMap.get (d.AddItem item now).1.items item.Name = some item ∧
      (∀ k : String, k ≠ item.Name →
        GoMap.get (d.AddItem item now).1.items k = GoMap.get d.items k) ∧
      (d.AddItem item now).1.Size = d.Size + 1) ∧
    ((d.RemoveItem name now).2 = some Error.ErrItemNotFound ↔
      (GoMap.get d.items name).isSome = false) ∧
    ((GoMap.get d.items name).isSome = false → (d.RemoveItem name now).1 = d) ∧
    ((GoMap.get d.items name).isSome = true →
      (d.RemoveItem name now).2 = none ∧
      GoMap.get (d.RemoveItem name now).1.items name = none ∧
      (∀ k : String, k ≠ name →
        GoMap.get (d.RemoveItem name now).1.items k = GoMap.get d.items k) ∧
      (GoMap.WF d.items → (d.RemoveItem name now).1.Size + 1 = d.Size)) ∧
    (GoMap.WF d.items →
      GoMap.WF (d.AddItem item now).1.items ∧ GoMap.WF (d.RemoveItem name now).1.items) := by
  refine ⟨?_, ?_, ?_, ?_, ?_, ?_, ?_⟩
  · unfold DirectoryImpl.AddItem
    cases h : (GoMap.get d.items item.Name).isSome <;> simp
  · intro h
    unfold DirectoryImpl.AddItem
    simp [h]
  · intro h
    have hnone : GoMap.get d.items item.Name = none := by
      cases hg : GoMap.get d.items item.Name with
      | none => rfl
      | some v => rw [hg] at h; cases h
    unfold DirectoryImpl.AddItem
    simp only [h, Bool.false_eq_true, if_false]
    refine ⟨trivial, GoMap.get_set_same _ _ _, fun k hk => GoMap.get_set_ne _ _ _ _ hk, ?_⟩
    simp only [DirectoryImpl.Size, GoMap.set, List.length_cons,
      GoMap.filter_of_get_none d.items item.Name hnone]
    push_cast
    rfl
  · unfold DirectoryImpl.RemoveItem
    cases h : (GoMap.get d.items name).isSome <;> simp
  · intro h
    unfold DirectoryImpl.RemoveItem
    simp [h]
  · intro h
    unfold DirectoryImpl.RemoveItem
    simp only [h, Bool.not_true, Bool.false_eq_true, if_false]
    refine ⟨trivial, GoMap.get_filter_same _ _, fun k hk => GoMap.get_filter_ne _ _ _ hk, ?_⟩
    intro hwf
    have := GoMap.length_filter_of_get_some d.items name hwf h
    simp only [DirectoryImpl.Size, GoMap.delete]
    exact_mod_cast this
  · intro hwf
    constructor
    · unfold DirectoryImpl.AddItem
      split
      · exact hwf
      · exact GoMap.wf_set _ _ _ hwf
    · unfold DirectoryImpl.RemoveItem
      split
      · exact hwf
      · exact GoMap.wf_filter _ _ hwf

theorem DirectoryImpl_AddItem_RemoveItem_witness :
    (sampleDirectory.AddItem sampleFile 5).2 = some Error.ErrItemExists ∧
    (sampleDirectory.AddItem sampleFile 5).1 = sampleDirectory ∧
    (sampleDirectory.RemoveItem "plik.txt" 5).2 = none ∧
    (sampleDirectory.RemoveItem "plik.txt" 5).1.Size + 1 = sampleDirectory.Size :=
  have h := DirectoryImpl_AddItem_RemoveItem sampleDirectory sampleFile "plik.txt" 5
  have hin : (GoMap.get sampleDirectory.items sampleFile.Name).isSome = true := by decide
  have hin' : (GoMap.get sampleDirectory.items "plik.txt").isSome = true := by decide
  ⟨h.1.mpr hin, (h.2.1 hin).1, (h.2.2.2.2.2.1 hin').1,
   (h.2.2.2.2.2.1 hin').2.2.2 (by simp [GoMap.WF, sampleDirectory])⟩

/-! ## The virtual file system -/

theorem foldl_append_singleton (visited : GoMap Item) (acc : List Item) :
    visited.foldl (fun result e => result ++ [e.2]) acc = acc ++ visited.map Prod.snd := by
  induction visited generalizing acc with
  | nil => simp
  | cons e t ih => simp [List.foldl_cons, ih]

/-- The method `Items` returns the items of the entries, in the order of the
iteration. -/
theorem Items_eq (d : DirectoryImpl Item) (visited : GoMap Item) :
    d.Items visited = visited.map Prod.snd := by
  unfold DirectoryImpl.Items
  rw [foldl_append_singleton]
  rfl

theorem find_by_name (m : GoMap Item) (name : String) (h : NamedByKey m) :
    (m.map Prod.snd).find? (fun item => item.Name == name) =
      (m.find? (fun e => e.1 == name)).map Prod.snd := by
  induction m with
  | nil => rfl
  | cons e t ih =>
    have he : e.2.Name = e.1 := h e (List.mem_cons_self _ _)
    have ht : NamedByKey t := fun e' he' => h e' (List.mem_cons_of_mem _ he')
    simp only [List.map_cons, List.find?_cons, he]
    cases hk : (e.1 == name)
    · exact ih ht
    · rfl

/-- In a map with one entry per key the entry found for a key does not
depend on the order of the entries. -/
theorem find_key_perm {V : Type} (m visited : GoMap V) (name : String) (hwf : GoMap.WF m)
    (hperm : visited.Perm m) :
    visited.find? (fun e => e.1 == name) = m.find? (fun e => e.1 == name) := by
  cases hm : m.find? (fun e => e.1 == name) with
  | none =>
    rw [List.find?_eq_none] at hm ⊢
    intro e he
    exact hm e (hperm.mem_iff.mp he)
  | some a =>
    have ha_mem : a ∈ m := List.mem_of_find?_eq_some hm
    have ha_key : (a.1 == name) = true := by
      have h := List.find?_some hm
      exact h
    cases hv : visited.find? (fun e => e.1 == name) with
    | none =>
      rw [List.find?_eq_none] at hv
      exact absurd ha_key (hv a (hperm.mem_iff.mpr ha_mem))
    | some b =>
      have hb_mem : b ∈ m := hperm.mem_iff.mp (List.mem_of_find?_eq_some hv)
      have hb_key : (b.1 == name) = true := by
        have h := List.find?_some hv
        exact h
      have hkeys : b.1 = a.1 := by
        rw [beq_iff_eq] at ha_key hb_key
        rw [ha_key, hb_key]
      rw [List.inj_on_of_nodup_map hwf hb_mem ha_mem hkeys]

theorem namedByKey_perm (m visited : GoMap Item) (h : NamedByKey m) (hperm : visited.Perm m) :
    NamedByKey visited :=
  fun e he => h e (hperm.mem_iff.mp he)

/-- The invariant of the root directory: one entry per key, and every entry
under the name of its item. -/
theorem AddItem_invariant (d : DirectoryImpl Item) (item : Item) (now : Time)
    (hwf : GoMap.WF d.items) (hn : NamedByKey d.items) :
    GoMap.WF (d.AddItem item now).1.items ∧ NamedByKey (d.AddItem item now).1.items := by
  unfold DirectoryImpl.AddItem
  split
  · exact ⟨hwf, hn⟩
  · refine ⟨GoMap.wf_set _ _ _ hwf, ?_⟩
    intro e he
    simp only [GoMap.set, List.mem_cons, List.mem_filter] at he
    rcases he with rfl | ⟨he, _⟩
    · rfl
    · exact hn e he

theorem RemoveItem_invariant (d : DirectoryImpl Item) (name : String) (now : Time)
    (hwf : GoMap.WF d.items) (hn : NamedByKey d.items) :
    GoMap.WF (d.RemoveItem name now).1.items ∧ NamedByKey (d.RemoveItem name now).1.items := by
  unfold DirectoryImpl.RemoveItem
  split
  · exact ⟨hwf, hn⟩
  · refine ⟨GoMap.wf_filter _ _ hwf, ?_⟩
    intro e he
    simp only [GoMap.delete, List.mem_filter] at he
    exact hn e he.1

theorem apply_invariant (vfs : VirtualFileSystem) (op : Op)
    (hwf : GoMap.WF vfs.root.items) (hn : NamedByKey vfs.root.items) :
    GoMap.WF (vfs.apply op).root.items ∧ NamedByKey (vfs.apply op).root.items := by
  cases op with
  | createFile name path readOnly clock => exact AddItem_invariant _ _ _ hwf hn
  | createDirectory name path clock => exact AddItem_invariant _ _ _ hwf hn
  | createSymLink name path target clock => exact AddItem_invariant _ _ _ hwf hn
  | deleteItem name clock => exact RemoveItem_invariant _ _ _ hwf hn

theorem foldl_apply_invariant (ops : List Op) :
    ∀ vfs : VirtualFileSystem, GoMap.WF vfs.root.items → NamedByKey vfs.root.items →
      GoMap.WF (ops.foldl VirtualFileSystem.apply vfs).root.items ∧
      NamedByKey (ops.foldl VirtualFileSystem.apply vfs).root.items := by
  induction ops with
  | nil => intro vfs hwf hn; exact ⟨hwf, hn⟩
  | cons op rest ih =>
    intro vfs hwf hn
    obtain ⟨h1, h2⟩ := apply_invariant vfs op hwf hn
    exact ih _ h1 h2

theorem runOps_invariant (clock : Nat → Time) (ops : List Op) :
    GoMap.WF (runOps clock ops).root.items ∧ NamedByKey (runOps clock ops).root.items := by
  unfold runOps
  apply foldl_apply_invariant
  · simp [NewVirtualFileSystem, NewDirectory, GoMap.WF]
  · intro e he
    simp [NewVirtualFileSystem, NewDirectory] at he

/-- What `FindItem` returns on a file system that satisfies the invariant,
whatever the iteration order. -/
theorem FindItem_eq (vfs : VirtualFileSystem) (visited : GoMap Item) (name : String)
    (hwf : GoMap.WF vfs.root.items) (hn : NamedByKey vfs.root.items)
    (hvis : IterationOrder vfs.root visited) :
    vfs.FindItem visited name =
      match GoMap.get vfs.root.items name with
      | some item => (some item, none)
      | none => (none, some Error.ErrItemNotFound) := by
  unfold VirtualFileSystem.FindItem
  rw [Items_eq, find_by_name visited name (namedByKey_perm _ _ hn hvis),
    find_key_perm vfs.root.items visited name hwf hvis]
  rfl

theorem AddItem_get_of_ok (d : DirectoryImpl Item) (item : Item) (now : Time)
    (h : (d.AddItem item now).2 = none) :
    GoMap.get (d.AddItem item now).1.items item.Name = some item := by
  unfold DirectoryImpl.AddItem at h ⊢
  split at h
  · cases h
  · next hne =>
    simp only [hne, if_false]
    exact GoMap.get_set_same _ _ _

theorem RemoveItem_get_of_ok (d : DirectoryImpl Item) (name : String) (now : Time)
    (_h : (d.RemoveItem name now).2 = none) :
    GoMap.get (d.RemoveItem name now).1.items name = none := by
  unfold DirectoryImpl.RemoveItem
  split
  · next hne =>
    cases hg : GoMap.get d.items name with
    | none => rfl
    | some v => rw [hg] at hne; simp at hne
  · exact GoMap.get_filter_same _ _

/-- Claim C18.  In every state of a `VirtualFileSystem` reached from
`NewVirtualFileSystem` by calls of `CreateFile`, `CreateDirectory`,
`CreateSymLink` and `DeleteItem`, every key of the map of the root is the
name of the item stored under it and no key occurs twice; so, whatever the
order in which the map is iterated, `FindItem(name)` returns the item stored
under `name` and a nil error when `name` is a key, and `ErrItemNotFound`
otherwise.  In particular, after a `Create...` call with that name that
returned a nil error `FindItem` returns the created item, and after a
`DeleteItem(name)` that returned a nil error it returns `ErrItemNotFound`. -/
theorem VirtualFileSystem_FindItem (clock : Nat → Time) (ops : List Op)
    (visited : GoMap Item) (name : String)
    (hvis : IterationOrder (runOps clock ops).root visited) :
    (∀ e ∈ (runOps clock ops).root.items, e.2.Name = e.1) ∧
    GoMap.WF (runOps clock ops).root.items ∧
    ((runOps clock ops).FindItem visited name =
      match GoMap.get (runOps clock ops).root.items name with
      | some item => (some item, none)
      | none => (none, some Error.ErrItemNotFound)) ∧
    (∀ item : Item, (runOps clock ops).FindItem visited name = (some item, none) ↔
      GoMap.get (runOps clock ops).root.items name = some item) ∧
    ((runOps clock ops).FindItem visited name = (none, some Error.ErrItemNotFound) ↔
      GoMap.get (runOps clock ops).root.items name = none) ∧
    (∀ (op : Op) (item : Item) (visited' : GoMap Item),
      (runOps clock ops).createdBy op = some item → (runOps clock ops).errorOf op = none →
      IterationOrder ((runOps clock ops).apply op).root visited' →
      ((runOps clock ops).apply op).FindItem visited' op.name = (some item, none)) ∧
    (∀ (n : String) (clock' : Nat → Time) (visited' : GoMap Item),
      (runOps clock ops).errorOf (Op.deleteItem n clock') = none →
      IterationOrder ((runOps clock ops).apply (Op.deleteItem n clock')).root visited' →
      ((runOps clock ops).apply (Op.deleteItem n clock')).FindItem visited' n =
        (none, some Error.ErrItemNotFound)) := by
  obtain ⟨hwf, hn⟩ := runOps_invariant clock ops
  have hfind := FindItem_eq (runOps clock ops) visited name hwf hn hvis
  refine ⟨hn, hwf, hfind, ?_, ?_, ?_, ?_⟩
  · intro item
    rw [hfind]
    cases GoMap.get (runOps clock ops).root.items name <;> simp
  · rw [hfind]
    cases GoMap.get (runOps clock ops).root.items name <;> simp
  · intro op item visited' hcreated herr hvis'
    obtain ⟨hwf', hn'⟩ := apply_invariant (runOps clock ops) op hwf hn
    rw [FindItem_eq _ visited' op.name hwf' hn' hvis']
    cases op with
    | createFile nm path readOnly clk =>
      simp only [VirtualFileSystem.createdBy, VirtualFileSystem.CreateFile,
        Option.some.injEq] at hcreated
      simp only [VirtualFileSystem.errorOf, VirtualFileSystem.CreateFile] at herr
      have hname : item.Name = nm := by
        rw [← hcreated]; cases readOnly <;> rfl
      have := AddItem_get_of_ok _ _ _ herr
      rw [hcreated, hname] at this
      simp only [VirtualFileSystem.apply, VirtualFileSystem.CreateFile, Op.name, hcreated]
      rw [this]
    | createDirectory nm path clk =>
      simp only [VirtualFileSystem.createdBy, VirtualFileSystem.CreateDirectory,
        Option.some.injEq] at hcreated
      simp only [VirtualFileSystem.errorOf, VirtualFileSystem.CreateDirectory] at herr
      have hname : item.Name = nm := by
        rw [← hcreated]; rfl
      have := AddItem_get_of_ok _ _ _ herr
      rw [hcreated, hname] at this
      simp only [VirtualFileSystem.apply, VirtualFileSystem.CreateDirectory, Op.name, hcreated]
      rw [this]
    | createSymLink nm path target clk =>
      simp only [VirtualFileSystem.createdBy, VirtualFileSystem.CreateSymLink,
        Option.some.injEq] at hcreated
      simp only [VirtualFileSystem.errorOf, VirtualFileSystem.CreateSymLink] at herr
      have hname : item.Name = nm := by
        rw [← hcreated]; rfl
      have := AddItem_get_of_ok _ _ _ herr
      rw [hcreated, hname] at this
      simp only [VirtualFileSystem.apply, VirtualFileSystem.CreateSymLink, Op.name, hcreated]
      rw [this]
    | deleteItem nm clk => simp [VirtualFileSystem.createdBy] at hcreated
  · intro n clock' visited' herr hvis'
    obtain ⟨hwf', hn'⟩ := apply_invariant (runOps clock ops) (Op.deleteItem n clock') hwf hn
    rw [FindItem_eq _ visited' n hwf' hn' hvis']
    simp only [VirtualFileSystem.errorOf, VirtualFileSystem.DeleteItem] at herr
    have := RemoveItem_get_of_ok _ _ _ herr
    simp only [VirtualFileSystem.apply, VirtualFileSystem.DeleteItem]
    rw [this]

theorem sampleOps_items :
    (runOps sampleClock sampleOps).root.items =
      [("link-do-pliku", sampleLink), ("plik.txt", sampleCreatedFile)] := by
  rfl

theorem VirtualFileSystem_FindItem_witness :
    IterationOrder (runOps sampleClock sampleOps).root
      [("plik.txt", sampleCreatedFile), ("link-do-pliku", sampleLink)] ∧
    (runOps sampleClock sampleOps).FindItem
      [("plik.txt", sampleCreatedFile), ("link-do-pliku", sampleLink)] "link-do-pliku" =
      (some sampleLink, none) ∧
    (runOps sampleClock sampleOps).FindItem
      [("plik.txt", sampleCreatedFile), ("link-do-pliku", sampleLink)] "readme.md" =
      (none, some Error.ErrItemNotFound) :=
  have hvis : IterationOrder (runOps sampleClock sampleOps).root
      [("plik.txt", sampleCreatedFile), ("link-do-pliku", sampleLink)] := by
    unfold IterationOrder
    rw [sampleOps_items]
    exact List.Perm.swap _ _ _
  ⟨hvis,
   by
    rw [(VirtualFileSystem_FindItem sampleClock sampleOps _ "link-do-pliku" hvis).2.2.1,
      sampleOps_items]
    rfl,
   by
    rw [(VirtualFileSystem_FindItem sampleClock sampleOps _ "readme.md" hvis).2.2.1,
      sampleOps_items]
    rfl⟩

end Lab3
